import Mathlib

/-!
# The Gentoo Python wrapper (`python-wrapper.c`)

A shallow embedding of `python-wrapper.c` and the properties of its
interpreter-resolution chain.

Conventions of the embedding

* A C string is the list of the bytes that precede its terminating NUL
  (`CString`); a `const char*` that may be `NULL` is an `Option CString`.
* `int` is a 32-bit two's complement integer: every arithmetic operation of
  the source is followed by `wrap32`.
* The environment, the filesystem and the outcome of `exec*` are read from a
  `World`; every library call the program makes is recorded in a list of
  `Call`s, in program order.
-/

namespace PythonWrapper

/-! ## C strings and machine integers -/

/-- The bytes of a C string, without the terminating NUL. -/
abbrev CString := List Char

/-- The C string of a literal. -/
def cs (s : String) : CString := s.toList

/-- The terminator byte. -/
def nul : Char := Char.ofNat 0

/-- A list of bytes is a C string when none of them is the terminator. -/
def WellFormed (s : CString) : Prop := ∀ c ∈ s, c ≠ nul

/-- Reduction of an integer to the 32-bit two's complement range. -/
def wrap32 (x : Int) : Int := (x + 2147483648) % 4294967296 - 2147483648

/-- The 32-bit pattern of an `int`, as an unsigned number. -/
def bits32 (x : Int) : Nat := (x % 4294967296).toNat

/-- The C expression `a + b` on `int`. -/
def int_add (a b : Int) : Int := wrap32 (a + b)

/-- The C expression `a - b` on `int`. -/
def int_sub (a b : Int) : Int := wrap32 (a - b)

/-- The C expression `a * b` on `int`. -/
def int_mul (a b : Int) : Int := wrap32 (a * b)

/-- The C expression `a << k` on `int` (the bits shifted out are lost). -/
def int_shl (a : Int) (k : Nat) : Int := wrap32 (a * 2 ^ k)

/-- The C expression `a | b` on `int`: bitwise or of the two 32-bit patterns. -/
def int_or (a b : Int) : Int := wrap32 (Int.ofNat (bits32 a ||| bits32 b))

/-- The test `c >= '0' && c <= '9'` of the source. -/
def isdigit (c : Char) : Bool := decide (48 ≤ c.toNat) && decide (c.toNat ≤ 57)

/-- The library function `strcmp`: the difference of the first two bytes that
differ, the terminator counting as byte 0. -/
def strcmp : CString → CString → Int
  | [], [] => 0
  | [], b :: _ => - (b.toNat : Int)
  | a :: _, [] => (a.toNat : Int)
  | a :: as, b :: bs => if a = b then strcmp as bs else (a.toNat : Int) - (b.toNat : Int)

/-- The library function `strncmp`: as `strcmp`, over at most `n` bytes. -/
def strncmp : CString → CString → Nat → Int
  | _, _, 0 => 0
  | [], [], _ + 1 => 0
  | [], b :: _, _ + 1 => - (b.toNat : Int)
  | a :: _, [], _ + 1 => (a.toNat : Int)
  | a :: as, b :: bs, n + 1 =>
    if a = b then strncmp as bs n else (a.toNat : Int) - (b.toNat : Int)

/-- The literal `"python"`. -/
def python : CString := cs "python"

/-! ## `valid_interpreter`, `get_version`, `sort_python` -/

/-- The source function `valid_interpreter`: false on `NULL`, on the empty
string and on `"python"`. -/
def valid_interpreter (name : Option CString) : Bool :=
  match name with
  | none => false
  | some [] => false
  | some (c :: s) => if strcmp (c :: s) python = 0 then false else true

/-- The second `do ... while` loop of `get_version` (lines 108-115), entered with
`name + pos` pointing at a digit. -/
def get_version_minor (major : Int) : Int → CString → Int
  | _, [] => -1
  | minor, c :: rest =>
    let minor1 := int_sub (int_add (int_mul minor 10) (c.toNat : Int)) 48
    match rest with
    | [] => int_or (int_shl major 8) minor1
    | d :: _ => if isdigit d then get_version_minor major minor1 rest else -1

/-- The first `do ... while` loop of `get_version` (lines 97-107), entered with
`name + pos` pointing at a digit, followed by the tests on the dot and on the
first digit of the minor number. -/
def get_version_major : Int → CString → Int
  | _, [] => -1
  | major, c :: rest =>
    let major1 := int_sub (int_add (int_mul major 10) (c.toNat : Int)) 48
    match rest with
    | [] => -1
    | d :: rest1 =>
      if isdigit d then get_version_major major1 rest
      else if d ≠ '.' then -1
      else
        match rest1 with
        | [] => -1
        | e :: _ => if isdigit e then get_version_minor major1 0 rest1 else -1

/-- The source function `get_version`; `-1` is its failure value. -/
def get_version (name : CString) : Int :=
  if valid_interpreter (some name) = false ∨ strncmp name python 6 ≠ 0 then -1
  else
    match name.drop 6 with
    | [] => -1
    | c :: rest => if isdigit c then get_version_major 0 (c :: rest) else -1

/-- The source function `filter_python`, on the name of the directory entry. -/
def filter_python (d_name : CString) : Bool := decide (get_version d_name ≠ -1)

/-- The source function `sort_python`, on the names of the two entries. -/
def sort_python (f1 f2 : CString) : Int :=
  int_sub (get_version f1) (get_version f2)

/-! ## `get_version` with signed overflow detected -/

/-- The value of an `int` expression when it is representable in 32 bits;
`none` on signed overflow. -/
def checked (x : Int) : Option Int :=
  if -2147483648 ≤ x ∧ x < 2147483648 then some x else none

/-- The statement `x = x * 10 + c - '0'`, with overflow detected in each of
its three operations. -/
def digit_checked (x : Int) (c : Char) : Option Int :=
  match checked (x * 10) with
  | none => none
  | some a =>
    match checked (a + (c.toNat : Int)) with
    | none => none
    | some b => checked (b - 48)

/-- The expression `(major << 8) | minor`, with overflow detected: the shift
is defined for a major number that is not negative and whose shifted value
is representable. -/
def pack_checked (major minor : Int) : Option Int :=
  if 0 ≤ major ∧ major * 256 < 2147483648 then some (int_or (major * 256) minor) else none

/-- The loop `get_version_minor`, with overflow detected. -/
def get_version_minor_checked (major : Int) : Int → CString → Option Int
  | _, [] => some (-1)
  | minor, c :: rest =>
    match digit_checked minor c with
    | none => none
    | some minor1 =>
      match rest with
      | [] => pack_checked major minor1
      | d :: _ => if isdigit d then get_version_minor_checked major minor1 rest else some (-1)

/-- The loop `get_version_major`, with overflow detected. -/
def get_version_major_checked : Int → CString → Option Int
  | _, [] => some (-1)
  | major, c :: rest =>
    match digit_checked major c with
    | none => none
    | some major1 =>
      match rest with
      | [] => some (-1)
      | d :: rest1 =>
        if isdigit d then get_version_major_checked major1 rest
        else if d ≠ '.' then some (-1)
        else
          match rest1 with
          | [] => some (-1)
          | e :: _ =>
            if isdigit e then get_version_minor_checked major1 0 rest1 else some (-1)

/-- The function `get_version`, with overflow detected: `none` when one of
its arithmetic operations overflows, otherwise the value it returns. -/
def get_version_checked (name : CString) : Option Int :=
  if valid_interpreter (some name) = false ∨ strncmp name python 6 ≠ 0 then some (-1)
  else
    match name.drop 6 with
    | [] => some (-1)
    | c :: rest => if isdigit c then get_version_major_checked 0 (c :: rest) else some (-1)

/-! ## Reading a name as the spec does -/

/-- The value of a run of decimal digits, continuing from `n`. -/
def decimalFrom (n : Nat) (ds : List Char) : Nat :=
  ds.foldl (fun acc c => 10 * acc + (c.toNat - 48)) n

/-- The value of a run of decimal digits. -/
def decimal (ds : List Char) : Nat := decimalFrom 0 ds

/-- A non-empty run of decimal digits. -/
def IsDigits (ds : List Char) : Prop := ds ≠ [] ∧ ∀ c ∈ ds, isdigit c = true

/-- The name `python<major>.<minor>` written with the given digit runs. -/
def versionName (ma mi : List Char) : CString := python ++ ma ++ '.' :: mi

/-- The names of the spec: `python`, digits, one dot, digits, and nothing else. -/
def IsVersionName (s : CString) : Prop :=
  ∃ ma mi, IsDigits ma ∧ IsDigits mi ∧ s = versionName ma mi

/-! ## The program's surroundings -/

/-- A library call made by the program, with its arguments. -/
inductive Call where
  | getenv (name : CString)
  | fopen (path : CString)
  | stat (path : CString)
  | scandir (dir : CString)
  | execv (path : CString) (argv : List CString)
  | execvp (file : CString) (argv : List CString)
  deriving DecidableEq

/-- What the program finds at the path of the configuration file. -/
inductive ConfigFile where
  /-- The file cannot be opened: `fopen` returns `NULL`. -/
  | absent
  /-- The file opens and reading it fails: `fgets` returns `NULL`. -/
  | unreadable
  /-- The file opens and holds these bytes; `st_size` is their number. -/
  | content (bytes : List Char)

/-- The state outside the program that one run reads. -/
structure World where
  /-- The library function `getenv`. -/
  getenv : CString → Option CString
  /-- Whether `stat` succeeds on the path and reports a regular file or a
  symbolic link (the test of line 66). -/
  stat_reg_or_lnk : CString → Bool
  /-- The configuration file at `ENVD_CONFIG`. -/
  config : ConfigFile
  /-- The names of the entries of a directory, in the order the system lists
  them; `none` when the directory cannot be listed. -/
  readdir : CString → Option (List CString)
  /-- Whether `execv` on this path and argument vector replaces the process. -/
  execv : CString → List CString → Bool
  /-- Whether `execvp` on this file and argument vector replaces the process. -/
  execvp : CString → List CString → Bool

/-- How a run of `main` ends. -/
inductive Outcome where
  /-- The call of `abort` on line 173. -/
  | aborted
  /-- A `NULL` pointer was dereferenced. -/
  | fault
  /-- The function `main` returned this status. -/
  | returned (status : Int)
  /-- An `exec` call succeeded and the process image was replaced. -/
  | replaced
  deriving DecidableEq

/-- A run of `main`: how it ends and the library calls it made, in order. -/
structure Run where
  outcome : Outcome
  calls : List Call

/-- The constant `ENVD_CONFIG`. -/
def ENVD_CONFIG : CString := cs "/etc/env.d/python/config"

/-- The constant `EXIT_ERROR`. -/
def EXIT_ERROR : Int := 127

/-- The constant `program_description`. -/
def program_description : CString := cs "Gentoo Python wrapper program"

/-! ## Library functions -/

/-- The library function `strrchr`: the index of the last occurrence of `c`. -/
def strrchr : CString → Char → Option Nat
  | [], _ => none
  | x :: xs, c =>
    match strrchr xs c with
    | some i => some (i + 1)
    | none => if x = c then some 0 else none

/-- The library function `strchr`, as the test the source makes of its result. -/
def strchr (s : CString) (c : Char) : Bool := s.contains c

/-- The tokens successive calls of `strtok_r` return on a string: its maximal
runs of bytes other than the delimiter, in order. The bytes of the current
token are collected in `acc`, last byte first. -/
def strtok_r (delim : Char) : List Char → CString → List CString
  | acc, [] => if acc = [] then [] else [acc.reverse]
  | acc, c :: rest =>
    if c = delim then
      (if acc = [] then strtok_r delim [] rest else acc.reverse :: strtok_r delim [] rest)
    else strtok_r delim (c :: acc) rest

/-- The library function `qsort` as `scandir` calls it on the entries that
passed the filter. Insertion sort stands for the library's algorithm; the
sorting theorems below are also stated for every sorted rearrangement. -/
def qsort (compar : CString → CString → Int) (l : List CString) : List CString :=
  l.insertionSort (fun a b => compar a b ≤ 0)

/-- The library function `scandir`: the names of the entries that pass the
filter, sorted with the comparison function; `none` for the result `-1`. -/
def scandir (w : World) (dir : CString) (filter : CString → Bool)
    (compar : CString → CString → Int) : Option (List CString) :=
  match w.readdir dir with
  | none => none
  | some entries => some (qsort compar (entries.filter filter))

/-- The bytes of a stream up to and including its first newline. -/
def first_line : List Char → List Char
  | [] => []
  | c :: rest => if c = '\n' then [c] else c :: first_line rest

/-- The C string a buffer holds: its bytes before the first NUL byte. -/
def cstr (buf : List Char) : CString := buf.takeWhile (fun c => decide (c ≠ nul))

/-- The library function `fgets` on a stream at its first byte, with a buffer
of `n` bytes: `none` is the result `NULL`, otherwise the string stored in the
buffer. With `n = 1` nothing is read and the empty string is stored (as glibc
and musl do); at the end of the stream with no byte read the result is `NULL`. -/
def fgets (n : Nat) (bytes : List Char) : Option CString :=
  if n = 0 then none
  else if n = 1 then some []
  else if bytes = [] then none
  else some (cstr ((first_line bytes).take (n - 1)))

/-! ## `dir_cat`, `find_path`, `find_latest`, `main` -/

/-- The source function `dir_cat`. -/
def dir_cat (dir file : CString) : CString := dir ++ '/' :: file

/-- The `while` loop of `find_path` (lines 57-71) over the tokens of `PATH`,
with the result and the calls made. -/
def find_path_loop (w : World) (exe : CString) : List CString → Option CString × List Call
  | [] => (none, [])
  | token :: rest =>
    let token1 := if token = [] then cs "." else token
    let str := dir_cat token1 exe
    if w.stat_reg_or_lnk str then (some token1, [Call.stat str])
    else
      let r := find_path_loop w exe rest
      (r.1, Call.stat str :: r.2)

/-- The source function `find_path`, with the calls it makes; `none` is the
result `NULL`. -/
def find_path (w : World) (exe : CString) : Option CString × List Call :=
  match strrchr exe '/' with
  | some len => (some (exe.take len), [])
  | none =>
    let PATH := match w.getenv (cs "PATH") with
      | some p => p
      | none => cs ":/bin:/usr/bin"
    let r := find_path_loop w exe (strtok_r ':' [] PATH)
    (r.1, Call.getenv (cs "PATH") :: r.2)

/-- The directory `find_latest` scans (lines 147-151). -/
def find_latest_dir (path : Option CString) : CString :=
  match path with
  | none => cs "/usr/bin"
  | some p => if p = [] then cs "/usr/bin" else p

/-- The loop of `find_latest` that walks backwards through the list (lines
160-165), given the entries in the order it visits them. -/
def find_latest_walk : Option CString → List CString → Option CString
  | ret, [] => ret
  | ret, e :: rest =>
    find_latest_walk (match ret with
      | none => some e
      | some r => some r) rest

/-- The source function `find_latest`, with the calls it makes. -/
def find_latest (w : World) (exe : CString) : Option CString × List Call :=
  let r := find_path w exe
  let path := find_latest_dir r.1
  match scandir w path filter_python sort_python with
  | none => (none, r.2 ++ [Call.scandir path])
  | some namelist => (find_latest_walk none namelist.reverse, r.2 ++ [Call.scandir path])

/-- Lines 187-189 of `main`: a final newline of the line read is removed. -/
def chomp (cont : CString) : CString :=
  if cont.getLast? = some '\n' then cont.dropLast else cont

/-- Lines 175-192 of `main`: the value of `EPYTHON` after the environment and
the configuration file were consulted; the outer `none` is a fault
(`strlen` of the `NULL` that `fgets` returned). -/
def main_config (w : World) : Option (Option CString) × List Call :=
  let EPYTHON := w.getenv (cs "EPYTHON")
  if valid_interpreter EPYTHON then (some EPYTHON, [Call.getenv (cs "EPYTHON")])
  else
    match w.config with
    | ConfigFile.absent =>
      (some EPYTHON, [Call.getenv (cs "EPYTHON"), Call.fopen ENVD_CONFIG])
    | ConfigFile.unreadable =>
      (none, [Call.getenv (cs "EPYTHON"), Call.fopen ENVD_CONFIG])
    | ConfigFile.content bytes =>
      match fgets (bytes.length + 1) bytes with
      | none => (none, [Call.getenv (cs "EPYTHON"), Call.fopen ENVD_CONFIG])
      | some cont =>
        (some (some (chomp cont)), [Call.getenv (cs "EPYTHON"), Call.fopen ENVD_CONFIG])

/-- Lines 175-195 of `main`: the resolved target `EPYTHON` (`none` is `NULL`);
the outer `none` is a fault. -/
def main_resolve (w : World) (argv0 : CString) : Option (Option CString) × List Call :=
  match main_config w with
  | (none, calls) => (none, calls)
  | (some EPYTHON, calls) =>
    if valid_interpreter EPYTHON then (some EPYTHON, calls)
    else
      let r := find_latest w argv0
      (some r.1, calls ++ r.2)

/-- The end of a run on an `exec` call: the process is replaced, or the call
returns and `main` returns `EXIT_ERROR`. -/
def exec_outcome (ok : Bool) : Outcome :=
  if ok then Outcome.replaced else Outcome.returned EXIT_ERROR

/-- The source function `main`, called with the argument vector
`argv0 :: args`. -/
def main (w : World) (argv0 : CString) (args : List CString) : Run :=
  if program_description.length = 0 then ⟨Outcome.aborted, []⟩
  else
    match main_resolve w argv0 with
    | (none, calls) => ⟨Outcome.fault, calls⟩
    | (some none, calls) => ⟨Outcome.returned EXIT_ERROR, calls⟩
    | (some (some EPYTHON), calls) =>
      if strchr EPYTHON '/' then
        ⟨exec_outcome (w.execv EPYTHON (argv0 :: args)),
          calls ++ [Call.execv EPYTHON (argv0 :: args)]⟩
      else
        let r := find_path w argv0
        match r.1 with
        | none => ⟨Outcome.fault, calls ++ r.2⟩
        | some path =>
          if path ≠ [] then
            ⟨exec_outcome (w.execv (dir_cat path EPYTHON) (argv0 :: args)),
              calls ++ r.2 ++ [Call.execv (dir_cat path EPYTHON) (argv0 :: args)]⟩
          else
            ⟨exec_outcome (w.execvp EPYTHON (argv0 :: args)),
              calls ++ r.2 ++ [Call.execvp EPYTHON (argv0 :: args)]⟩

/-! ## Notions of the spec -/

/-- The strings of a list joined by a delimiter byte. -/
def joinWith (delim : Char) : List CString → CString
  | [] => []
  | [s] => s
  | s :: t :: rest => s ++ delim :: joinWith delim (t :: rest)

/-- The ten names of the spec's ordering example, in its order. -/
def orderedNames : List CString :=
  [cs "python2.6", cs "python2.9", cs "python2.10", cs "python3.0", cs "python9.1",
   cs "python9.9", cs "python9.10", cs "python10.1", cs "python10.9", cs "python10.10"]

/-- The codes `get_version` returns without the sign bit: between 0 and
`2^31 - 1`. -/
def InRange (v : Int) : Prop := 0 ≤ v ∧ v < 2147483648

/-- The first line of the configuration file, without its newline. -/
def config_line (bytes : List Char) : CString :=
  bytes.takeWhile (fun c => decide (c ≠ '\n'))

/-- Neither the override nor the configuration file supplies a valid value:
`EPYTHON` is unset or fails `valid_interpreter`, and the configuration file
cannot be opened or is a text (no NUL byte) whose first line fails
`valid_interpreter`. -/
def NoValidValue (w : World) : Prop :=
  valid_interpreter (w.getenv (cs "EPYTHON")) = false ∧
  (w.config = ConfigFile.absent ∨
    ∃ bytes, w.config = ConfigFile.content bytes ∧ WellFormed bytes ∧
      valid_interpreter (some (config_line bytes)) = false)

/-- The call is one that reads the configuration file. -/
def Call.isFopen : Call → Bool
  | Call.fopen _ => true
  | _ => false

/-- The call is a directory scan. -/
def Call.isScandir : Call → Bool
  | Call.scandir _ => true
  | _ => false

/-- The call is an `exec` call. -/
def Call.isExec : Call → Bool
  | Call.execv _ _ => true
  | Call.execvp _ _ => true
  | _ => false

/-- A world for the examples: the given values of `EPYTHON` and `PATH`, the
given paths as the regular files `stat` finds, the given configuration file
and the given listing for every directory; no `exec` call succeeds. -/
def exampleWorld (epython path : Option CString) (files : List CString)
    (config : ConfigFile) (entries : Option (List CString)) : World where
  getenv := fun name =>
    if name = cs "EPYTHON" then epython else if name = cs "PATH" then path else none
  stat_reg_or_lnk := fun p => files.contains p
  config := config
  readdir := fun _ => entries
  execv := fun _ _ => false
  execvp := fun _ _ => false

/-- A world in which nothing is set, no configuration file exists and every
directory lists `python3.0` and `python2.300`. -/
def clashWorld : World :=
  exampleWorld none none [] ConfigFile.absent (some [cs "python3.0", cs "python2.300"])

/-- A world in which `EPYTHON` is `python3.9`, the configuration file names
`python2.7` and every directory lists `python3.11`. -/
def overrideWorld : World :=
  exampleWorld (some (cs "python3.9")) none [] (ConfigFile.content (cs "python2.7\n"))
    (some [cs "python3.11"])

/-- A world in which `EPYTHON` is unset, the configuration file holds two
lines, the first of them `python3.9`, and every directory lists `python3.11`. -/
def configWorld : World :=
  exampleWorld none none [] (ConfigFile.content (cs "python3.9\npython2.7\n"))
    (some [cs "python3.11"])

/-- A world in which nothing is set, no configuration file exists and every
directory lists `python3.10`, `README`, `python9.1` and `python2.6`. -/
def scanWorld : World :=
  exampleWorld none none [] ConfigFile.absent
    (some [cs "python3.10", cs "README", cs "python9.1", cs "python2.6"])

/-- A world in which nothing is set, no configuration file exists and no
directory can be listed. -/
def emptyWorld : World :=
  exampleWorld none none [] ConfigFile.absent none

/-! ## A filesystem with symbolic links -/

/-- What a path names, as `lstat` reports it. -/
inductive FileKind where
  | regular
  | directory
  | symlink (target : CString)
  deriving DecidableEq

/-- The library function `stat` on a filesystem given by what each path names:
a symbolic link is followed to its target, through at most `fuel` links;
`none` when the path, or the target of a link on the way, names nothing. -/
def stat_follow (lstat : CString → Option FileKind) : Nat → CString → Option FileKind
  | 0, _ => none
  | fuel + 1, path =>
    match lstat path with
    | none => none
    | some (FileKind.symlink target) => stat_follow lstat fuel target
    | some kind => some kind

/-- The test of line 66 on such a filesystem: `stat` succeeds and
`S_ISREG (sbuf.st_mode) || S_ISLNK (sbuf.st_mode)` holds of what it reports. -/
def stat_test (lstat : CString → Option FileKind) (path : CString) : Bool :=
  match stat_follow lstat 40 path with
  | some FileKind.regular => true
  | some (FileKind.symlink _) => true
  | _ => false

/-- A filesystem whose only file is `/z/python`, a symbolic link to
`/z/python2.7`, which does not exist. -/
def linkFiles : CString → Option FileKind :=
  fun p => if p = cs "/z/python" then some (FileKind.symlink (cs "/z/python2.7")) else none

/-- A world on the filesystem `linkFiles` in which `PATH` is `/z`. -/
def linkWorld : World where
  getenv := fun name => if name = cs "PATH" then some (cs "/z") else none
  stat_reg_or_lnk := stat_test linkFiles
  config := ConfigFile.absent
  readdir := fun _ => none
  execv := fun _ _ => false
  execvp := fun _ _ => false

/-- A world in which `PATH` is `/opt::/bin`, with an empty segment in the
middle, and the files are `python` in the current directory and
`/bin/python`. -/
def gapWorld : World :=
  exampleWorld none (some (cs "/opt::/bin")) [cs "./python", cs "/bin/python"]
    ConfigFile.absent none

/-- A world in which `PATH` is `:/bin` and the only file is `/python`. -/
def rootWorld : World :=
  exampleWorld none (some (cs ":/bin")) [cs "/python"] ConfigFile.absent none

/-- A world in which `PATH` is `:/bin`, with a leading empty segment, and the
only file is `python` in the current directory. -/
def colonWorld : World :=
  exampleWorld none (some (cs ":/bin")) [cs "./python"] ConfigFile.absent none

/-- The world `colonWorld` with the empty segment of `PATH` written as `.`. -/
def dotWorld : World :=
  exampleWorld none (some (cs ".:/bin")) [cs "./python"] ConfigFile.absent none

/-- A world in which `PATH` is unset and the only file is `/usr/bin/python`. -/
def unsetPathWorld : World :=
  exampleWorld none none [cs "/usr/bin/python"] ConfigFile.absent none

/-- Lines 206-214 of `main`: the handoff of a target without `/`, after a
resolution that made the given calls. -/
def main_bare (w : World) (argv0 : CString) (args : List CString) (EPYTHON : CString)
    (calls : List Call) : Run :=
  match (find_path w argv0).1 with
  | none => ⟨Outcome.fault, calls ++ (find_path w argv0).2⟩
  | some path =>
    if path ≠ [] then
      ⟨exec_outcome (w.execv (dir_cat path EPYTHON) (argv0 :: args)),
        calls ++ (find_path w argv0).2 ++ [Call.execv (dir_cat path EPYTHON) (argv0 :: args)]⟩
    else
      ⟨exec_outcome (w.execvp EPYTHON (argv0 :: args)),
        calls ++ (find_path w argv0).2 ++ [Call.execvp EPYTHON (argv0 :: args)]⟩

/-- A world in which `EPYTHON` is `/opt/python/bin/python3`. -/
def absoluteWorld : World :=
  exampleWorld (some (cs "/opt/python/bin/python3")) none [] ConfigFile.absent none

/-- A world in which `EPYTHON` is `python3.9`, `PATH` is unset and `stat`
finds no file. -/
def bareWorld : World :=
  exampleWorld (some (cs "python3.9")) none [] ConfigFile.absent none

/-- A world in which nothing is set, the configuration file opens and cannot
be read (a directory at its path, for one), and every directory lists
`python3.9`. -/
def unreadableWorld : World :=
  exampleWorld none none [] ConfigFile.unreadable (some [cs "python3.9"])

/-- The world `unreadableWorld` with no configuration file. -/
def absentWorld : World :=
  exampleWorld none none [] ConfigFile.absent (some [cs "python3.9"])

/-- The world `unreadableWorld` with an empty configuration file. -/
def emptyConfigWorld : World :=
  exampleWorld none none [] (ConfigFile.content []) (some [cs "python3.9"])

/-- A world in which nothing is set, no configuration file exists and every
directory lists `.`, `..`, `python2.6` and `python16777215.255`, a name that
`get_version` rejects. -/
def dotsWorld : World :=
  exampleWorld none none [] ConfigFile.absent
    (some [cs ".", cs "..", cs "python2.6", cs "python16777215.255"])

/-! ## Lemmas on the machine integers -/

theorem wrap32_of_range {x : Int} (h0 : -2147483648 ≤ x) (h1 : x < 2147483648) :
    wrap32 x = x := by
  unfold wrap32; omega

theorem wrap32_natCast_of_lt {n : Nat} (h : n < 2147483648) : wrap32 (n : Int) = n := by
  unfold wrap32; omega

theorem bits32_natCast_of_lt {n : Nat} (h : n < 4294967296) : bits32 (n : Int) = n := by
  unfold bits32; omega

/-- One round of `x = x * 10 + c - '0'` on a digit keeps `x` the reduction of
the decimal value read so far. -/
theorem digit_step (n : Nat) (c : Char) (hc : isdigit c = true) :
    int_sub (int_add (int_mul (wrap32 (n : Int)) 10) (c.toNat : Int)) 48
      = wrap32 ((10 * n + (c.toNat - 48) : Nat) : Int) := by
  simp only [isdigit, Bool.and_eq_true, decide_eq_true_eq] at hc
  unfold int_sub int_add int_mul wrap32
  omega

/-- On patterns without sign bit, `|` is the bitwise or of the numbers. -/
theorem int_or_natCast {a b : Nat} (ha : a < 2147483648) (hb : b < 2147483648) :
    int_or (a : Int) (b : Int) = ((a ||| b : Nat) : Int) := by
  have h : a ||| b < 2 ^ 31 := Nat.or_lt_two_pow (by simpa using ha) (by simpa using hb)
  have h2 : a ||| b < 2147483648 := by simpa using h
  unfold int_or
  rw [bits32_natCast_of_lt (by omega), bits32_natCast_of_lt (by omega)]
  exact wrap32_natCast_of_lt h2

/-- Packing `(major << 8) | minor` when the major number is below `2^23` and the
minor number below `2^31`. -/
theorem pack_natCast {a b : Nat} (ha : a < 8388608) (hb : b < 2147483648) :
    int_or (int_shl (wrap32 (a : Int)) 8) (wrap32 (b : Int)) = ((a * 256 ||| b : Nat) : Int) := by
  rw [wrap32_natCast_of_lt (by omega), wrap32_natCast_of_lt hb]
  have h : int_shl (a : Int) 8 = ((a * 256 : Nat) : Int) := by
    unfold int_shl wrap32
    push_cast
    omega
  rw [h]
  exact int_or_natCast (by omega) hb

/-- Packing `(major << 8) | minor` when moreover the minor number is below 256. -/
theorem pack_small {a b : Nat} (ha : a < 8388608) (hb : b < 256) :
    int_or (int_shl (wrap32 (a : Int)) 8) (wrap32 (b : Int)) = ((a * 256 + b : Nat) : Int) := by
  rw [pack_natCast ha (by omega)]
  have h := Nat.mul_add_lt_is_or (show b < 2 ^ 8 by simpa using hb) a
  have e : (2 : Nat) ^ 8 = 256 := by norm_num
  rw [e] at h
  rw [Nat.mul_comm a 256, h]

/-! ## Lemmas on the version parser -/

theorem python_eq : python = ['p', 'y', 't', 'h', 'o', 'n'] := rfl

theorem isdigit_toNat {c : Char} (h : isdigit c = true) : 48 ≤ c.toNat ∧ c.toNat ≤ 57 := by
  simpa only [isdigit, Bool.and_eq_true, decide_eq_true_eq] using h

theorem isdigit_dot : isdigit '.' = false := by decide

theorem char_eq_of_toNat_eq {a b : Char} (h : a.toNat = b.toNat) : a = b := by
  rw [← Char.ofNat_toNat a, ← Char.ofNat_toNat b, h]

theorem decimalFrom_cons (n : Nat) (c : Char) (ds : List Char) :
    decimalFrom n (c :: ds) = decimalFrom (10 * n + (c.toNat - 48)) ds := rfl

/-- A comparison of `n` bytes against a NUL-free string of length `n` gives 0
only when these bytes are that string. -/
theorem strncmp_eq_zero (p : CString) (hp : ∀ c ∈ p, c.toNat ≠ 0) (s : CString) :
    strncmp s p p.length = 0 ↔ s.take p.length = p := by
  induction p generalizing s with
  | nil => simp [strncmp]
  | cons b p ih =>
    have hb : b.toNat ≠ 0 := hp b (List.mem_cons_self b p)
    cases s with
    | nil =>
      simp only [strncmp, List.length_cons, List.take_nil]
      constructor
      · intro h; omega
      · intro h; cases h
    | cons a s =>
      simp only [strncmp, List.length_cons, List.take_succ_cons]
      by_cases hab : a = b
      · subst hab
        simp only [if_true, List.cons.injEq, true_and]
        exact ih (fun c hc => hp c (List.mem_cons_of_mem _ hc)) s
      · simp only [hab, if_false, List.cons.injEq, false_and, iff_false]
        intro h
        apply hab
        exact char_eq_of_toNat_eq (by omega)

theorem strncmp_python (s : CString) : strncmp s python 6 = 0 ↔ s.take 6 = python := by
  have h := strncmp_eq_zero python (by decide) s
  simpa [python_eq] using h

theorem get_version_minor_step (major minor : Int) (c d : Char) (rest : CString)
    (hd : isdigit d = true) :
    get_version_minor major minor (c :: d :: rest)
      = get_version_minor major
          (int_sub (int_add (int_mul minor 10) (c.toNat : Int)) 48) (d :: rest) := by
  conv_lhs => rw [get_version_minor]
  simp only [hd, if_true]

theorem get_version_major_step (major : Int) (c d : Char) (rest : CString)
    (hd : isdigit d = true) :
    get_version_major major (c :: d :: rest)
      = get_version_major (int_sub (int_add (int_mul major 10) (c.toNat : Int)) 48)
          (d :: rest) := by
  conv_lhs => unfold get_version_major
  simp only [hd, if_true]

/-- The minor loop on a run of digits returns the packed code of the major
number and of the run's decimal value. -/
theorem get_version_minor_digits (major : Int) (ds : List Char) :
    ∀ (c : Char) (n : Nat), isdigit c = true → (∀ d ∈ ds, isdigit d = true) →
      get_version_minor major (wrap32 (n : Int)) (c :: ds)
        = int_or (int_shl major 8) (wrap32 (decimalFrom n (c :: ds) : Nat)) := by
  induction ds with
  | nil =>
    intro c n hc _
    simp only [get_version_minor, digit_step n c hc, decimalFrom_cons]
    rfl
  | cons d ds ih =>
    intro c n hc hds
    have hd : isdigit d = true := hds d (List.mem_cons_self d ds)
    have hrest : ∀ e ∈ ds, isdigit e = true := fun e he => hds e (List.mem_cons_of_mem _ he)
    rw [decimalFrom_cons]
    rw [← ih d (10 * n + (c.toNat - 48)) hd hrest]
    rw [get_version_minor_step major _ c d ds hd, digit_step n c hc]

/-- The major loop on a run of digits followed by a dot and a run of digits
returns the packed code of the two decimal values. -/
theorem get_version_major_digits (mi : List Char) (hmi : IsDigits mi) (ds : List Char) :
    ∀ (c : Char) (n : Nat), isdigit c = true → (∀ d ∈ ds, isdigit d = true) →
      get_version_major (wrap32 (n : Int)) (c :: (ds ++ '.' :: mi))
        = int_or (int_shl (wrap32 (decimalFrom n (c :: ds) : Nat)) 8)
            (wrap32 (decimal mi : Nat)) := by
  induction ds with
  | nil =>
    intro c n hc _
    obtain ⟨hne, hdig⟩ := hmi
    cases mi with
    | nil => exact absurd rfl hne
    | cons e mi =>
      have he : isdigit e = true := hdig e (List.mem_cons_self e mi)
      have hrest : ∀ x ∈ mi, isdigit x = true := fun x hx => hdig x (List.mem_cons_of_mem _ hx)
      have h0 : (0 : Int) = wrap32 ((0 : Nat) : Int) := by decide
      simp only [List.nil_append, get_version_major, digit_step n c hc, isdigit_dot,
        Bool.false_eq_true, if_false, ne_eq, not_true_eq_false, he, if_true, decimalFrom_cons]
      rw [h0, get_version_minor_digits _ mi e 0 he hrest]
      rfl
  | cons d ds ih =>
    intro c n hc hds
    have hd : isdigit d = true := hds d (List.mem_cons_self d ds)
    have hrest : ∀ e ∈ ds, isdigit e = true := fun e he => hds e (List.mem_cons_of_mem _ he)
    rw [decimalFrom_cons]
    rw [← ih d (10 * n + (c.toNat - 48)) hd hrest]
    rw [List.cons_append, get_version_major_step _ c d _ hd, digit_step n c hc]

/-- A difference of bytes against `"python"` that is 0 forces equality when the
other string is longer than `"python"` by a non-NUL byte. -/
theorem strcmp_python_append_ne (c : Char) (hc : c.toNat ≠ 0) (rest : CString) :
    strcmp (python ++ c :: rest) python ≠ 0 := by
  simp only [python_eq, List.cons_append, List.nil_append, strcmp, if_true]
  omega

/-- The code `get_version` returns on a name of the spec's shape: the packed
32-bit reductions of its two decimal values. -/
theorem get_version_versionName (ma mi : List Char) (hma : IsDigits ma) (hmi : IsDigits mi) :
    get_version (versionName ma mi)
      = int_or (int_shl (wrap32 (decimal ma : Nat)) 8) (wrap32 (decimal mi : Nat)) := by
  obtain ⟨hne, hdig⟩ := hma
  cases ma with
  | nil => exact absurd rfl hne
  | cons c ds =>
    have hc : isdigit c = true := hdig c (List.mem_cons_self c ds)
    have hrest : ∀ x ∈ ds, isdigit x = true := fun x hx => hdig x (List.mem_cons_of_mem _ hx)
    have hv : valid_interpreter (some (versionName (c :: ds) mi)) = true := by
      have h := strcmp_python_append_ne c (by have := isdigit_toNat hc; omega)
        (ds ++ '.' :: mi)
      have e : versionName (c :: ds) mi = 'p' :: (['y', 't', 'h', 'o', 'n'] ++ c :: (ds ++ '.' :: mi)) := by
        simp [versionName, python_eq]
      have e2 : python ++ c :: (ds ++ '.' :: mi) = versionName (c :: ds) mi := by
        simp [versionName]
      rw [e2] at h
      rw [e] at h ⊢
      simp only [valid_interpreter]
      rw [if_neg h]
    have hs : strncmp (versionName (c :: ds) mi) python 6 = 0 := by
      rw [strncmp_python]
      simp [versionName, python_eq]
    have hdrop : (versionName (c :: ds) mi).drop 6 = c :: (ds ++ '.' :: mi) := by
      simp [versionName, python_eq]
    have h0 : (0 : Int) = wrap32 ((0 : Nat) : Int) := by decide
    unfold get_version
    rw [if_neg (by simp [hv, hs]), hdrop]
    simp only [hc, if_true]
    rw [h0, get_version_major_digits mi hmi ds c 0 hc hrest]
    rfl

/-- When the minor loop does not fail, every byte after its first is a digit. -/
theorem get_version_minor_ne (major : Int) (rest : CString) :
    ∀ (c : Char) (minor : Int), get_version_minor major minor (c :: rest) ≠ -1 →
      ∀ d ∈ rest, isdigit d = true := by
  induction rest with
  | nil => intro c minor _ d hd; cases hd
  | cons d rest ih =>
    intro c minor h x hx
    by_cases hd : isdigit d = true
    · rw [get_version_minor_step major minor c d rest hd] at h
      rcases List.mem_cons.mp hx with rfl | hx
      · exact hd
      · exact ih d _ h x hx
    · exfalso
      apply h
      conv_lhs => rw [get_version_minor]
      simp only [hd, if_false, Bool.false_eq_true]

/-- When the major loop does not fail, what follows its first byte is a run of
digits, a dot and a non-empty run of digits. -/
theorem get_version_major_ne (rest : CString) :
    ∀ (c : Char) (major : Int), get_version_major major (c :: rest) ≠ -1 →
      ∃ ds mi, rest = ds ++ '.' :: mi ∧ (∀ d ∈ ds, isdigit d = true) ∧ IsDigits mi := by
  induction rest with
  | nil =>
    intro c major h
    exact absurd (by unfold get_version_major; rfl) h
  | cons d rest ih =>
    intro c major h
    by_cases hd : isdigit d = true
    · rw [get_version_major_step major c d rest hd] at h
      obtain ⟨ds, mi, hr, hds, hmi⟩ := ih d _ h
      refine ⟨d :: ds, mi, by rw [hr]; rfl, ?_, hmi⟩
      intro x hx
      rcases List.mem_cons.mp hx with rfl | hx
      · exact hd
      · exact hds x hx
    · by_cases hdot : d = '.'
      · subst hdot
        cases rest with
        | nil => exact absurd (by unfold get_version_major; simp [isdigit_dot]) h
        | cons e rest =>
          by_cases he : isdigit e = true
          · have h2 : get_version_major major (c :: '.' :: e :: rest)
                = get_version_minor (int_sub (int_add (int_mul major 10) (c.toNat : Int)) 48)
                    0 (e :: rest) := by
              conv_lhs => unfold get_version_major
              simp only [isdigit_dot, Bool.false_eq_true, if_false, ne_eq, not_true_eq_false,
                he, if_true]
            rw [h2] at h
            have hrest := get_version_minor_ne _ rest e 0 h
            refine ⟨[], e :: rest, rfl, ?_, List.cons_ne_nil _ _, ?_⟩
            · intro x hx
              cases hx
            intro x hx
            rcases List.mem_cons.mp hx with rfl | hx
            · exact he
            · exact hrest x hx
          · exfalso
            apply h
            unfold get_version_major
            simp only [isdigit_dot, Bool.false_eq_true, if_false, ne_eq, not_true_eq_false, he]
      · exfalso
        apply h
        unfold get_version_major
        simp only [hd, Bool.false_eq_true, if_false, ne_eq, hdot, not_false_eq_true, if_true]

/-- A name `get_version` accepts has the spec's shape. -/
theorem get_version_ne (s : CString) (h : get_version s ≠ -1) : IsVersionName s := by
  unfold get_version at h
  by_cases hg : valid_interpreter (some s) = false ∨ strncmp s python 6 ≠ 0
  · rw [if_pos hg] at h; exact absurd rfl h
  · rw [if_neg hg] at h
    have hs : strncmp s python 6 = 0 := by
      by_contra hne; exact hg (Or.inr hne)
    have htake : s.take 6 = python := (strncmp_python s).mp hs
    have hsplit : s = python ++ s.drop 6 := by
      conv_lhs => rw [← List.take_append_drop 6 s, htake]
    cases hdrop : s.drop 6 with
    | nil => rw [hdrop] at h; exact absurd rfl h
    | cons c rest =>
      rw [hdrop] at h
      by_cases hc : isdigit c = true
      · simp only [hc, if_true] at h
        obtain ⟨ds, mi, hr, hds, hmi⟩ := get_version_major_ne rest c 0 h
        refine ⟨c :: ds, mi, ⟨List.cons_ne_nil _ _, ?_⟩, hmi, ?_⟩
        · intro x hx
          rcases List.mem_cons.mp hx with rfl | hx
          · exact hc
          · exact hds x hx
        · rw [hsplit, hdrop, hr]
          simp [versionName]
      · simp only [hc, if_false, Bool.false_eq_true] at h
        exact absurd rfl h

theorem toNat_ne_zero_of_ne_nul {c : Char} (h : c ≠ nul) : c.toNat ≠ 0 := by
  intro h0
  apply h
  rw [← Char.ofNat_toNat c, h0]
  rfl

/-- On C strings `strcmp` returns 0 exactly on equal strings. -/
theorem strcmp_eq_zero (a : CString) :
    ∀ b : CString, WellFormed a → WellFormed b → (strcmp a b = 0 ↔ a = b) := by
  induction a with
  | nil =>
    intro b _ hb
    cases b with
    | nil => simp [strcmp]
    | cons y b =>
      have hy := toNat_ne_zero_of_ne_nul (hb y (List.mem_cons_self y b))
      simp only [strcmp, List.nil_eq, reduceCtorEq, iff_false]
      omega
  | cons x a ih =>
    intro b ha hb
    have hx := toNat_ne_zero_of_ne_nul (ha x (List.mem_cons_self x a))
    cases b with
    | nil =>
      simp only [strcmp, reduceCtorEq, iff_false]
      omega
    | cons y b =>
      simp only [strcmp, List.cons.injEq]
      by_cases hxy : x = y
      · subst hxy
        simp only [if_true, true_and]
        exact ih b (fun c hc => ha c (List.mem_cons_of_mem _ hc))
          (fun c hc => hb c (List.mem_cons_of_mem _ hc))
      · simp only [hxy, if_false, false_and, iff_false]
        intro h
        exact hxy (char_eq_of_toNat_eq (by omega))

theorem wellFormed_python : WellFormed python := by
  unfold WellFormed
  decide

/-- The characterisation of `valid_interpreter` on a C string. -/
theorem valid_interpreter_some (s : CString) (hs : WellFormed s) :
    valid_interpreter (some s) = true ↔ s ≠ [] ∧ s ≠ python := by
  cases s with
  | nil => simp [valid_interpreter]
  | cons c s =>
    have h := strcmp_eq_zero (c :: s) python hs wellFormed_python
    simp only [valid_interpreter, ne_eq, reduceCtorEq, not_false_eq_true, true_and]
    by_cases h0 : strcmp (c :: s) python = 0
    · simp only [h0, if_true, Bool.false_eq_true, false_iff, not_not]
      exact h.mp h0
    · simp only [h0, if_false, true_iff]
      exact fun e => h0 (h.mpr e)

theorem isDigits_cs_2 : IsDigits (cs "2") := by
  unfold IsDigits; decide

theorem isDigits_cs_3 : IsDigits (cs "3") := by
  unfold IsDigits; decide

theorem isDigits_cs_6 : IsDigits (cs "6") := by
  unfold IsDigits; decide

theorem isDigits_cs_0 : IsDigits (cs "0") := by
  unfold IsDigits; decide

theorem isDigits_cs_256 : IsDigits (cs "256") := by
  unfold IsDigits; decide

/-- The code of a name whose major number is below `2^23` and whose minor
number is below `2^31` is not negative. -/
theorem get_version_nonneg (ma mi : List Char) (hma : IsDigits ma) (hmi : IsDigits mi)
    (ha : decimal ma < 8388608) (hb : decimal mi < 2147483648) :
    0 ≤ get_version (versionName ma mi) := by
  rw [get_version_versionName ma mi hma hmi, pack_natCast ha hb]
  exact Int.ofNat_nonneg _

/-- The code of a name whose major number is below `2^23` and whose minor
number is below 256 is `major * 256 + minor`. -/
theorem get_version_small (ma mi : List Char) (hma : IsDigits ma) (hmi : IsDigits mi)
    (ha : decimal ma < 8388608) (hb : decimal mi < 256) :
    get_version (versionName ma mi) = ((decimal ma * 256 + decimal mi : Nat) : Int) := by
  rw [get_version_versionName ma mi hma hmi, pack_small ha hb]

/-! ## The claims on the version parser and the ordering -/

set_option maxRecDepth 100000 in
/-- C1, counterexample: the name `python16777215.255` has the shape of the
spec, digits, one dot, digits, and `get_version` returns the failure value
`-1` on it: `16777215 << 8` is `-256` and `-256 | 255` is `-1`. -/
theorem get_version_sentinel_clash :
    IsVersionName (cs "python16777215.255") ∧ get_version (cs "python16777215.255") = -1 := by
  refine ⟨⟨cs "16777215", cs "255", ?_, ?_, rfl⟩, by decide⟩
  · unfold IsDigits; decide
  · unfold IsDigits; decide

/-- C1 (amended): every name `get_version` accepts is exactly `python`, one or
more digits, one dot, one or more digits; every such name whose major number
is below `2^23` and whose minor number is below `2^31` is accepted;
`python2.6` is accepted and `python`, `python3`, `python3.`, `python3.x`,
`pythonx.3` are rejected. -/
theorem get_version_accepts :
    (∀ s : CString, get_version s ≠ -1 → IsVersionName s) ∧
    (∀ ma mi : List Char, IsDigits ma → IsDigits mi →
      decimal ma < 8388608 → decimal mi < 2147483648 →
      get_version (versionName ma mi) ≠ -1) ∧
    get_version (cs "python2.6") ≠ -1 ∧
    get_version (cs "python") = -1 ∧ get_version (cs "python3") = -1 ∧
    get_version (cs "python3.") = -1 ∧ get_version (cs "python3.x") = -1 ∧
    get_version (cs "pythonx.3") = -1 := by
  refine ⟨get_version_ne, ?_, by decide, by decide, by decide, by decide, by decide, by decide⟩
  intro ma mi hma hmi ha hb h
  have := get_version_nonneg ma mi hma hmi ha hb
  omega

/-- C1, witness: `python2.6` read through both directions of the theorem. -/
theorem get_version_accepts_witness :
    IsVersionName (cs "python2.6") ∧ get_version (versionName (cs "2") (cs "6")) ≠ -1 :=
  ⟨get_version_accepts.1 (cs "python2.6") (by decide),
   get_version_accepts.2.1 (cs "2") (cs "6") isDigits_cs_2 isDigits_cs_6
     (by decide) (by decide)⟩

/-- C2, counterexample: `python2.256` and `python3.0` are both accepted and
`(2, 256)` is below `(3, 0)`, yet `sort_python` returns 0 on them, not a
negative number: both names have the code 768. -/
theorem sort_python_minor_clash :
    get_version (versionName (cs "2") (cs "256")) ≠ -1 ∧
    get_version (versionName (cs "3") (cs "0")) ≠ -1 ∧
    decimal (cs "2") < decimal (cs "3") ∧
    ¬ sort_python (versionName (cs "2") (cs "256")) (versionName (cs "3") (cs "0")) < 0 := by
  decide

/-- C2 (amended): for two names of the spec's shape whose major numbers are
below `2^23` and whose minor numbers are below 256, `sort_python` is negative
exactly when the first `(major, minor)` is lexicographically below the
second, under integer comparison. -/
theorem sort_python_neg_iff (ma mi mb nb : List Char)
    (hma : IsDigits ma) (hmi : IsDigits mi) (hmb : IsDigits mb) (hnb : IsDigits nb)
    (ha : decimal ma < 8388608) (hi : decimal mi < 256)
    (hb : decimal mb < 8388608) (hn : decimal nb < 256) :
    sort_python (versionName ma mi) (versionName mb nb) < 0 ↔
      (decimal ma < decimal mb ∨ (decimal ma = decimal mb ∧ decimal mi < decimal nb)) := by
  unfold sort_python
  rw [get_version_small ma mi hma hmi ha hi, get_version_small mb nb hmb hnb hb hn]
  unfold int_sub wrap32
  omega

/-- C2, witness: `python2.6` against `python3.0`. -/
theorem sort_python_neg_iff_witness :
    sort_python (versionName (cs "2") (cs "6")) (versionName (cs "3") (cs "0")) < 0 ↔
      (decimal (cs "2") < decimal (cs "3") ∨
        (decimal (cs "2") = decimal (cs "3") ∧ decimal (cs "6") < decimal (cs "0"))) :=
  sort_python_neg_iff (cs "2") (cs "6") (cs "3") (cs "0") isDigits_cs_2 isDigits_cs_6
    isDigits_cs_3 isDigits_cs_0 (by decide) (by decide) (by decide) (by decide)

/-- C4: `valid_interpreter` is false on `NULL`; on a C string it is true
exactly when the string is not empty and is not `python`; in particular it is
true on `python3`, `pypy` and `/opt/bin/python`, which `get_version` rejects. -/
theorem valid_interpreter_iff (name : Option CString)
    (hwf : ∀ s, name = some s → WellFormed s) :
    (valid_interpreter name = true ↔ ∃ s, name = some s ∧ s ≠ [] ∧ s ≠ cs "python") ∧
    (valid_interpreter (some (cs "python3")) = true ∧ get_version (cs "python3") = -1) ∧
    (valid_interpreter (some (cs "pypy")) = true ∧ get_version (cs "pypy") = -1) ∧
    (valid_interpreter (some (cs "/opt/bin/python")) = true ∧
      get_version (cs "/opt/bin/python") = -1) := by
  refine ⟨?_, by decide, by decide, by decide⟩
  cases name with
  | none => simp [valid_interpreter]
  | some s =>
    rw [valid_interpreter_some s (hwf s rfl)]
    constructor
    · intro h; exact ⟨s, rfl, h.1, h.2⟩
    · rintro ⟨t, ht, h1, h2⟩
      cases ht
      exact ⟨h1, h2⟩

/-- C4, witness: the name `python3.9`. -/
theorem valid_interpreter_iff_witness :
    valid_interpreter (some (cs "python3.9")) = true ↔
      ∃ s, some (cs "python3.9") = some s ∧ s ≠ [] ∧ s ≠ cs "python" :=
  (valid_interpreter_iff (some (cs "python3.9"))
    (fun s hs => by cases hs; unfold WellFormed; decide)).1

/-! ## Lemmas on sorting with `sort_python` -/

theorem int_sub_nonpos_iff {x y : Int} (hx : InRange x) (hy : InRange y) :
    int_sub x y ≤ 0 ↔ x ≤ y := by
  obtain ⟨hx0, hx1⟩ := hx
  obtain ⟨hy0, hy1⟩ := hy
  unfold int_sub wrap32
  omega

theorem sort_python_nonpos_iff {a b : CString} (ha : InRange (get_version a))
    (hb : InRange (get_version b)) :
    sort_python a b ≤ 0 ↔ get_version a ≤ get_version b :=
  int_sub_nonpos_iff ha hb

theorem qsort_perm (compar : CString → CString → Int) (l : List CString) :
    (qsort compar l).Perm l :=
  List.perm_insertionSort _ l

/-- On names with codes in range, `qsort` with `sort_python` sorts the codes. -/
theorem qsort_map_get_version (l : List CString) (h : ∀ a ∈ l, InRange (get_version a)) :
    (qsort sort_python l).map get_version
      = (l.map get_version).insertionSort (fun x y : Int => x ≤ y) := by
  unfold qsort
  apply List.map_insertionSort
  intro a ha b hb
  exact sort_python_nonpos_iff (h a ha) (h b hb)

theorem qsort_pairwise (l : List CString) (h : ∀ a ∈ l, InRange (get_version a)) :
    (qsort sort_python l).Pairwise (fun a b => get_version a ≤ get_version b) := by
  have hs : ((qsort sort_python l).map get_version).Sorted (fun x y : Int => x ≤ y) := by
    rw [qsort_map_get_version l h]
    exact List.sorted_insertionSort _ _
  exact List.pairwise_map.mp hs

/-- Two lists with the same image under a map that is injective on their
elements are equal. -/
theorem eq_of_map_eq_of_inj {α β : Type} (f : α → β) (l1 : List α) :
    ∀ l2 : List α, l1.map f = l2.map f →
      (∀ x ∈ l1, ∀ y ∈ l2, f x = f y → x = y) → l1 = l2 := by
  induction l1 with
  | nil =>
    intro l2 h _
    cases l2 with
    | nil => rfl
    | cons y l2 => simp at h
  | cons x l1 ih =>
    intro l2 h hinj
    cases l2 with
    | nil => simp at h
    | cons y l2 =>
      simp only [List.map_cons, List.cons.injEq] at h
      have hxy : x = y := hinj x (List.mem_cons_self x l1) y (List.mem_cons_self y l2) h.1
      have ht : l1 = l2 := ih l2 h.2 (fun a ha b hb =>
        hinj a (List.mem_cons_of_mem _ ha) b (List.mem_cons_of_mem _ hb))
      rw [hxy, ht]

/-- A list of names with strictly increasing codes is its only rearrangement
in which the codes do not decrease. -/
theorem sorted_rearrangement_unique (L q : List CString)
    (hL : (L.map get_version).Sorted (fun x y : Int => x < y))
    (hq : q.Perm L) (hs : q.Pairwise (fun a b => get_version a ≤ get_version b)) :
    q = L := by
  have h1 : (q.map get_version).Sorted (fun x y : Int => x ≤ y) := List.pairwise_map.mpr hs
  have h2 : (L.map get_version).Sorted (fun x y : Int => x ≤ y) :=
    List.Pairwise.imp (fun h => le_of_lt h) hL
  have hmap : q.map get_version = L.map get_version :=
    List.eq_of_perm_of_sorted (hq.map get_version) h1 h2
  have hnd : (L.map get_version).Nodup := List.Sorted.nodup hL
  apply eq_of_map_eq_of_inj get_version q L hmap
  intro x hx y hy hxy
  exact List.inj_on_of_nodup_map hnd (hq.subset hx) hy hxy

theorem orderedNames_inRange : ∀ a ∈ orderedNames, InRange (get_version a) := by
  unfold InRange
  decide

theorem orderedNames_codes :
    (orderedNames.map get_version).Sorted (fun x y : Int => x < y) := by
  unfold List.Sorted
  decide

/-- C3: the ten names of the spec's example are all accepted by `get_version`,
`sort_python` is negative on every pair of neighbours in the spec's order, and
sorting any permutation of them with `sort_python` gives exactly that order:
this holds of the model of `qsort` and of every rearrangement in which no name
compares above a later one. -/
theorem orderedNames_sorted :
    (∀ n ∈ orderedNames, get_version n ≠ -1) ∧
    List.Chain' (fun a b => sort_python a b < 0) orderedNames ∧
    (∀ p : List CString, p.Perm orderedNames → qsort sort_python p = orderedNames) ∧
    (∀ q : List CString, q.Perm orderedNames →
      q.Pairwise (fun a b => sort_python a b ≤ 0) → q = orderedNames) := by
  refine ⟨by decide, ?_, ?_, ?_⟩
  · simp only [orderedNames, List.chain'_cons, List.chain'_singleton, and_true]
    decide
  · intro p hp
    have hr : ∀ a ∈ p, InRange (get_version a) :=
      fun a ha => orderedNames_inRange a (hp.subset ha)
    exact sorted_rearrangement_unique orderedNames _ orderedNames_codes
      ((qsort_perm sort_python p).trans hp) (qsort_pairwise p hr)
  · intro q hq hs
    apply sorted_rearrangement_unique orderedNames q orderedNames_codes hq
    exact hs.imp_of_mem (fun {a b} ha hb h =>
      (sort_python_nonpos_iff (orderedNames_inRange a (hq.subset ha))
        (orderedNames_inRange b (hq.subset hb))).mp h)

/-- C3, witness: the ten names in reverse order are sorted back into the
spec's order. -/
theorem orderedNames_sorted_witness :
    qsort sort_python orderedNames.reverse = orderedNames :=
  orderedNames_sorted.2.2.1 orderedNames.reverse (List.reverse_perm orderedNames)

/-! ## Lemmas on `find_path` -/

theorem strrchr_eq_none (c : Char) (s : CString) : strrchr s c = none ↔ c ∉ s := by
  induction s with
  | nil => simp [strrchr]
  | cons x s ih =>
    unfold strrchr
    cases h : strrchr s c with
    | some i =>
      have : ¬ c ∉ s := fun hn => by rw [ih.mpr hn] at h; cases h
      simp only [reduceCtorEq, List.mem_cons, not_or, false_iff, not_and]
      intro _
      exact this
    | none =>
      have hs : c ∉ s := ih.mp h
      by_cases hx : x = c
      · simp [hx]
      · have hx2 : ¬ c = x := fun e => hx e.symm
        simp [hx, hx2, hs]

/-- The index `strrchr` returns splits the string at the last occurrence. -/
theorem strrchr_eq_some (c : Char) (s : CString) :
    ∀ i, strrchr s c = some i → ∃ suf, s = s.take i ++ c :: suf ∧ c ∉ suf := by
  induction s with
  | nil => intro i h; simp [strrchr] at h
  | cons x s ih =>
    intro i h
    unfold strrchr at h
    cases hs : strrchr s c with
    | some j =>
      rw [hs] at h
      simp only [Option.some.injEq] at h
      obtain ⟨suf, h1, h2⟩ := ih j hs
      refine ⟨suf, ?_, h2⟩
      rw [← h, List.take_succ_cons, List.cons_append, ← h1]
    | none =>
      rw [hs] at h
      by_cases hx : x = c
      · simp only [hx, if_true, Option.some.injEq] at h
        refine ⟨s, ?_, (strrchr_eq_none c s).mp hs⟩
        rw [← h, hx]
        rfl
      · simp [hx] at h

/-- The result of the `PATH` loop over non-empty tokens: the first token
under which the name is found. -/
theorem find_path_loop_fst (w : World) (exe : CString) (toks : List CString)
    (h : ∀ t ∈ toks, t ≠ []) :
    (find_path_loop w exe toks).1
      = toks.find? (fun d => w.stat_reg_or_lnk (dir_cat d exe)) := by
  induction toks with
  | nil => rfl
  | cons t toks ih =>
    have ht : t ≠ [] := h t (List.mem_cons_self t toks)
    have ih2 := ih (fun u hu => h u (List.mem_cons_of_mem _ hu))
    unfold find_path_loop
    simp only [ht, if_false]
    by_cases hs : w.stat_reg_or_lnk (dir_cat t exe) = true
    · simp [hs]
    · simp only [hs, Bool.false_eq_true, if_false]
      rw [ih2, List.find?_cons]
      simp [hs]

theorem strtok_r_append (delim : Char) (seg : List Char) (hseg : delim ∉ seg) :
    ∀ (acc : List Char) (rest : CString),
      strtok_r delim acc (seg ++ rest) = strtok_r delim (seg.reverse ++ acc) rest := by
  induction seg with
  | nil => intro acc rest; rfl
  | cons c seg ih =>
    intro acc rest
    have hc : ¬ c = delim := fun e => hseg (by rw [e]; exact List.mem_cons_self _ _)
    have hs : delim ∉ seg := fun hm => hseg (List.mem_cons_of_mem _ hm)
    rw [List.cons_append]
    conv_lhs => unfold strtok_r
    simp only [hc, if_false]
    rw [ih hs (c :: acc) rest]
    simp

/-- The tokens of a string made of segments joined by the delimiter are its
non-empty segments, in order. -/
theorem strtok_r_joinWith (delim : Char) (segs : List CString)
    (h : ∀ s ∈ segs, delim ∉ s) :
    strtok_r delim [] (joinWith delim segs) = segs.filter (fun s => decide (s ≠ [])) := by
  induction segs with
  | nil => rfl
  | cons s segs ih =>
    have hs : delim ∉ s := h s (List.mem_cons_self s segs)
    have ih2 := ih (fun t ht => h t (List.mem_cons_of_mem _ ht))
    cases segs with
    | nil =>
      have e : joinWith delim [s] = s ++ [] := by simp [joinWith]
      rw [e, strtok_r_append delim s hs]
      unfold strtok_r
      by_cases hnil : s = []
      · simp [hnil]
      · simp [hnil]
    | cons t segs =>
      have e : joinWith delim (s :: t :: segs) = s ++ delim :: joinWith delim (t :: segs) := rfl
      rw [e, strtok_r_append delim s hs]
      conv_lhs => unfold strtok_r
      simp only [if_true, List.append_nil, List.reverse_eq_nil_iff, List.reverse_reverse]
      rw [ih2]
      by_cases hnil : s = []
      · simp [hnil]
      · simp [hnil]

/-- The calls `find_path` makes are `getenv` and `stat` calls. -/
theorem find_path_loop_calls (w : World) (exe : CString) (toks : List CString) :
    ∀ c ∈ (find_path_loop w exe toks).2,
      c.isFopen = false ∧ c.isScandir = false ∧ c.isExec = false := by
  induction toks with
  | nil => intro c hc; cases hc
  | cons t toks ih =>
    intro c hc
    unfold find_path_loop at hc
    by_cases hs : w.stat_reg_or_lnk (dir_cat (if t = [] then cs "." else t) exe) = true
    · simp only [hs, if_true, List.mem_singleton] at hc
      subst hc
      exact ⟨rfl, rfl, rfl⟩
    · simp only [hs, Bool.false_eq_true, if_false, List.mem_cons] at hc
      rcases hc with rfl | hc
      · exact ⟨rfl, rfl, rfl⟩
      · exact ih c hc

theorem find_path_calls (w : World) (exe : CString) :
    ∀ c ∈ (find_path w exe).2,
      c.isFopen = false ∧ c.isScandir = false ∧ c.isExec = false := by
  intro c hc
  unfold find_path at hc
  cases h : strrchr exe '/' with
  | some i => rw [h] at hc; cases hc
  | none =>
    rw [h] at hc
    simp only [List.mem_cons] at hc
    rcases hc with rfl | hc
    · exact ⟨rfl, rfl, rfl⟩
    · exact find_path_loop_calls w exe _ c hc

/-! ## The claims on `find_path` with a `/` in the name, and the search of `PATH` -/

/-- C9: for every invoked name that contains a `/`, `find_path` returns the
part of the name before its last `/`, makes no library call, and so returns
the same for every `PATH` and every state of the filesystem; for `/python`
the result is the empty string. -/
theorem find_path_slash :
    (∀ exe : CString, '/' ∈ exe →
      ∃ dir file : CString, exe = dir ++ '/' :: file ∧ '/' ∉ file ∧
        ∀ w : World, find_path w exe = (some dir, [])) ∧
    (∀ w : World, find_path w (cs "/python") = (some [], [])) := by
  constructor
  · intro exe hexe
    cases h : strrchr exe '/' with
    | none => exact absurd hexe ((strrchr_eq_none '/' exe).mp h)
    | some i =>
      obtain ⟨suf, h1, h2⟩ := strrchr_eq_some '/' exe i h
      refine ⟨exe.take i, suf, h1, h2, ?_⟩
      intro w
      unfold find_path
      rw [h]
  · intro w
    rfl

/-- C9, witness: the invoked name `/usr/bin/python`. -/
theorem find_path_slash_witness :
    ∃ dir file : CString, cs "/usr/bin/python" = dir ++ '/' :: file ∧ '/' ∉ file ∧
      ∀ w : World, find_path w (cs "/usr/bin/python") = (some dir, []) :=
  find_path_slash.1 (cs "/usr/bin/python") (by decide)

/-- What `find_path` does on an invoked name without `/`, for a `PATH` value
given as its segments joined by `:`: it returns the first non-empty segment,
in `PATH` order, for which segment + `/` + name passes the test of line 66 on
the result of `stat`, and `NULL` when no such segment does; empty segments
are not searched. -/
theorem find_path_search (w : World) (exe : CString) (segs : List CString)
    (hexe : '/' ∉ exe) (hsegs : ∀ s ∈ segs, ':' ∉ s)
    (hpath : w.getenv (cs "PATH") = some (joinWith ':' segs)) :
    (find_path w exe).1
      = (segs.filter (fun s => decide (s ≠ []))).find?
          (fun dir => w.stat_reg_or_lnk (dir ++ cs "/" ++ exe)) ∧
    ((∀ s ∈ segs, s ≠ []) →
      (find_path w exe).1
        = segs.find? (fun dir => w.stat_reg_or_lnk (dir ++ cs "/" ++ exe))) := by
  have hd : ∀ dir : CString, dir ++ cs "/" ++ exe = dir_cat dir exe := by
    intro dir
    simp [dir_cat, cs]
  have hgen : (find_path w exe).1
      = (segs.filter (fun s => decide (s ≠ []))).find?
          (fun dir => w.stat_reg_or_lnk (dir ++ cs "/" ++ exe)) := by
    simp only [hd]
    unfold find_path
    rw [(strrchr_eq_none '/' exe).mpr hexe]
    simp only [hpath]
    rw [strtok_r_joinWith ':' segs hsegs]
    apply find_path_loop_fst
    intro t ht
    simpa using (List.mem_filter.mp ht).2
  refine ⟨hgen, ?_⟩
  intro hne
  have hfil : segs.filter (fun s => decide (s ≠ [])) = segs := by
    rw [List.filter_eq_self]
    intro s hs
    simpa using hne s hs
  rw [hgen, hfil]

/-- An instance of `find_path_search`: `python` looked up with `PATH` set to
`/opt/bin:/usr/bin` when only `/usr/bin/python` exists: the result is
`/usr/bin`. -/
theorem find_path_search_example :
    (find_path (exampleWorld none (some (cs "/opt/bin:/usr/bin")) [cs "/usr/bin/python"]
        ConfigFile.absent none) (cs "python")).1
      = [cs "/opt/bin", cs "/usr/bin"].find?
          (fun dir => (exampleWorld none (some (cs "/opt/bin:/usr/bin"))
            [cs "/usr/bin/python"] ConfigFile.absent none).stat_reg_or_lnk
              (dir ++ cs "/" ++ cs "python")) ∧
    [cs "/opt/bin", cs "/usr/bin"].find?
          (fun dir => (exampleWorld none (some (cs "/opt/bin:/usr/bin"))
            [cs "/usr/bin/python"] ConfigFile.absent none).stat_reg_or_lnk
              (dir ++ cs "/" ++ cs "python")) = some (cs "/usr/bin") :=
  ⟨(find_path_search _ (cs "python") [cs "/opt/bin", cs "/usr/bin"]
      (by decide) (by decide) (by decide)).2 (by decide), by decide⟩

/-! ## Lemmas on the configuration file -/

theorem first_line_eq (l : List Char) :
    first_line l = l.takeWhile (fun c => decide (c ≠ '\n')) ++ ['\n'] ∨
    first_line l = l.takeWhile (fun c => decide (c ≠ '\n')) := by
  induction l with
  | nil => right; rfl
  | cons c l ih =>
    by_cases hc : c = '\n'
    · left
      simp [first_line, hc]
    · rcases ih with h | h
      · left
        simp [first_line, hc, List.takeWhile_cons, h]
      · right
        simp [first_line, hc, List.takeWhile_cons, h]

theorem first_line_length (l : List Char) : (first_line l).length ≤ l.length := by
  induction l with
  | nil => simp [first_line]
  | cons c l ih =>
    by_cases hc : c = '\n'
    · simp [first_line, hc]
    · simp only [first_line, hc, if_false, List.length_cons]
      omega

theorem first_line_subset (l : List Char) : ∀ c ∈ first_line l, c ∈ l := by
  induction l with
  | nil => intro c hc; simp [first_line] at hc
  | cons x l ih =>
    intro c hc
    by_cases hx : x = '\n'
    · simp only [first_line, hx, if_true, List.mem_singleton] at hc
      rw [hc, hx]
      exact List.mem_cons_self _ _
    · simp only [first_line, hx, if_false, List.mem_cons] at hc
      rcases hc with rfl | hc
      · exact List.mem_cons_self _ _
      · exact List.mem_cons_of_mem _ (ih c hc)

theorem cstr_of_wellFormed (l : List Char) (h : WellFormed l) : cstr l = l := by
  unfold cstr
  rw [List.takeWhile_eq_self_iff]
  intro c hc
  simpa using h c hc

theorem chomp_first_line (l : List Char) :
    chomp (first_line l) = config_line l := by
  unfold config_line
  have hmem : ∀ c ∈ l.takeWhile (fun c => decide (c ≠ '\n')), c ≠ '\n' := by
    intro c hc
    simpa using List.mem_takeWhile_imp hc
  rcases first_line_eq l with h | h
  · rw [h]
    unfold chomp
    simp
  · rw [h]
    unfold chomp
    have hl : (l.takeWhile (fun c => decide (c ≠ '\n'))).getLast? ≠ some '\n' := by
      intro e
      exact hmem '\n' (List.mem_of_getLast?_eq_some e) rfl
    rw [if_neg hl]

/-- The value `main` reads from a configuration file without NUL bytes: its
first line, without the newline. -/
theorem fgets_chomp (bytes : List Char) (hwf : WellFormed bytes) :
    ∃ cont, fgets (bytes.length + 1) bytes = some cont ∧
      chomp cont = config_line bytes := by
  cases bytes with
  | nil => exact ⟨[], rfl, rfl⟩
  | cons b bytes =>
    refine ⟨first_line (b :: bytes), ?_, chomp_first_line _⟩
    unfold fgets
    have h1 : ¬ (b :: bytes).length + 1 = 0 := by simp
    have h2 : ¬ (b :: bytes).length + 1 = 1 := by simp
    rw [if_neg h1, if_neg h2, if_neg (List.cons_ne_nil _ _)]
    have ht : (first_line (b :: bytes)).take ((b :: bytes).length + 1 - 1)
        = first_line (b :: bytes) := by
      apply List.take_of_length_le
      have := first_line_length (b :: bytes)
      omega
    rw [ht, cstr_of_wellFormed]
    intro c hc
    exact hwf c (first_line_subset _ c hc)

/-! ## Lemmas on `main` -/

theorem main_config_absent (w : World)
    (he : valid_interpreter (w.getenv (cs "EPYTHON")) = false)
    (hc : w.config = ConfigFile.absent) :
    main_config w
      = (some (w.getenv (cs "EPYTHON")),
          [Call.getenv (cs "EPYTHON"), Call.fopen ENVD_CONFIG]) := by
  unfold main_config
  simp only [he, Bool.false_eq_true, if_false, hc]

theorem main_config_content (w : World) (bytes : List Char)
    (he : valid_interpreter (w.getenv (cs "EPYTHON")) = false)
    (hc : w.config = ConfigFile.content bytes) (hwf : WellFormed bytes) :
    main_config w
      = (some (some (config_line bytes)),
          [Call.getenv (cs "EPYTHON"), Call.fopen ENVD_CONFIG]) := by
  obtain ⟨cont, h1, h2⟩ := fgets_chomp bytes hwf
  unfold main_config
  simp only [he, Bool.false_eq_true, if_false, hc, h1, h2]

theorem main_resolve_valid (w : World) (argv0 : CString) (v : Option CString)
    (calls : List Call) (hc : main_config w = (some v, calls))
    (hv : valid_interpreter v = true) :
    main_resolve w argv0 = (some v, calls) := by
  unfold main_resolve
  rw [hc]
  simp only [hv, if_true]

theorem main_resolve_invalid (w : World) (argv0 : CString) (v : Option CString)
    (calls : List Call) (hc : main_config w = (some v, calls))
    (hv : valid_interpreter v = false) :
    main_resolve w argv0
      = (some (find_latest w argv0).1, calls ++ (find_latest w argv0).2) := by
  unfold main_resolve
  rw [hc]
  simp only [hv, Bool.false_eq_true, if_false]

/-- When neither source supplies a valid value, the target is the result of
`find_latest`. -/
theorem main_resolve_scan (w : World) (argv0 : CString) (h : NoValidValue w) :
    main_resolve w argv0
      = (some (find_latest w argv0).1,
          [Call.getenv (cs "EPYTHON"), Call.fopen ENVD_CONFIG] ++ (find_latest w argv0).2) := by
  obtain ⟨he, hc | ⟨bytes, hc, hwf, hv⟩⟩ := h
  · exact main_resolve_invalid w argv0 _ _ (main_config_absent w he hc) he
  · exact main_resolve_invalid w argv0 _ _ (main_config_content w bytes he hc hwf) hv

theorem find_latest_walk_some (r : CString) (l : List CString) :
    find_latest_walk (some r) l = some r := by
  induction l with
  | nil => rfl
  | cons e l ih => unfold find_latest_walk; exact ih

/-- Walking backwards through the list keeps its last entry. -/
theorem find_latest_walk_reverse (l : List CString) :
    find_latest_walk none l.reverse = l.getLast? := by
  rw [← List.head?_reverse]
  cases l.reverse with
  | nil => rfl
  | cons e r => unfold find_latest_walk; exact find_latest_walk_some e r

theorem find_latest_calls (w : World) (exe : CString) :
    ∀ c ∈ (find_latest w exe).2, c.isFopen = false ∧ c.isExec = false := by
  intro c hc
  have hcalls : (find_latest w exe).2
      = (find_path w exe).2 ++ [Call.scandir (find_latest_dir (find_path w exe).1)] := by
    unfold find_latest
    dsimp only
    split <;> rfl
  rw [hcalls, List.mem_append] at hc
  rcases hc with hc | hc
  · have := find_path_calls w exe c hc
    exact ⟨this.1, this.2.2⟩
  · rw [List.mem_singleton] at hc
    subst hc
    exact ⟨rfl, rfl⟩

/-- The result of `find_latest`, from the listing of the directory it scans. -/
theorem find_latest_fst (w : World) (exe : CString) :
    (find_latest w exe).1
      = match w.readdir (find_latest_dir (find_path w exe).1) with
        | none => none
        | some entries => (qsort sort_python (entries.filter filter_python)).getLast? := by
  unfold find_latest scandir
  dsimp only
  cases w.readdir (find_latest_dir (find_path w exe).1) with
  | none => rfl
  | some entries => exact find_latest_walk_reverse _

theorem program_description_length : ¬ program_description.length = 0 := by decide

theorem main_of_no_target (w : World) (argv0 : CString) (args : List CString)
    (calls : List Call) (h : main_resolve w argv0 = (some none, calls)) :
    main w argv0 args = ⟨Outcome.returned EXIT_ERROR, calls⟩ := by
  unfold main
  rw [if_neg program_description_length, h]

/-- The calls of `main` once a target is resolved: those of the resolution,
those of `find_path` and an `exec` call. -/
theorem main_calls_of_target (w : World) (argv0 : CString) (args : List CString)
    (target : CString) (calls : List Call)
    (h : main_resolve w argv0 = (some (some target), calls)) :
    ∀ c ∈ (main w argv0 args).calls,
      c ∈ calls ∨ c ∈ (find_path w argv0).2 ∨ c.isExec = true := by
  intro c hc
  unfold main at hc
  rw [if_neg program_description_length, h] at hc
  dsimp only at hc
  by_cases hs : strchr target '/' = true
  · simp only [hs, if_true, List.mem_append, List.mem_singleton] at hc
    rcases hc with hc | hc
    · exact Or.inl hc
    · subst hc; exact Or.inr (Or.inr rfl)
  · simp only [hs, Bool.false_eq_true, if_false] at hc
    cases hp : (find_path w argv0).1 with
    | none =>
      rw [hp] at hc
      simp only [List.mem_append] at hc
      rcases hc with hc | hc
      · exact Or.inl hc
      · exact Or.inr (Or.inl hc)
    | some path =>
      rw [hp] at hc
      dsimp only at hc
      by_cases hne : path ≠ []
      · rw [if_pos hne] at hc
        simp only [List.mem_append, List.mem_singleton] at hc
        rcases hc with (hc | hc) | hc
        · exact Or.inl hc
        · exact Or.inr (Or.inl hc)
        · subst hc; exact Or.inr (Or.inr rfl)
      · rw [if_neg hne] at hc
        simp only [List.mem_append, List.mem_singleton] at hc
        rcases hc with (hc | hc) | hc
        · exact Or.inl hc
        · exact Or.inr (Or.inl hc)
        · subst hc; exact Or.inr (Or.inr rfl)

theorem isExec_not_fopen_scandir (c : Call) (h : c.isExec = true) :
    c.isFopen = false ∧ c.isScandir = false := by
  cases c <;> simp [Call.isExec] at h <;> exact ⟨rfl, rfl⟩

/-! ## The claims on the resolution chain -/

/-- C5: when `EPYTHON` passes `valid_interpreter`, the target `main` resolves
is exactly the value of `EPYTHON`, in every world (whatever the configuration
file and the directories hold); the only call of the resolution is the
`getenv` of `EPYTHON`, and the whole run of `main` neither opens the
configuration file nor scans a directory. -/
theorem main_override (w : World) (argv0 : CString) (args : List CString) (e : CString)
    (he : w.getenv (cs "EPYTHON") = some e) (hv : valid_interpreter (some e) = true) :
    main_resolve w argv0 = (some (some e), [Call.getenv (cs "EPYTHON")]) ∧
    ∀ c ∈ (main w argv0 args).calls, c.isFopen = false ∧ c.isScandir = false := by
  have hcfg : main_config w = (some (some e), [Call.getenv (cs "EPYTHON")]) := by
    unfold main_config
    simp only [he, hv, if_true]
  have hres := main_resolve_valid w argv0 (some e) _ hcfg hv
  refine ⟨hres, ?_⟩
  intro c hc
  rcases main_calls_of_target w argv0 args e _ hres c hc with h | h | h
  · rw [List.mem_singleton] at h
    subst h
    exact ⟨rfl, rfl⟩
  · have := find_path_calls w argv0 c h
    exact ⟨this.1, this.2.1⟩
  · exact isExec_not_fopen_scandir c h

/-- C5, witness: `EPYTHON=python3.9` with a configuration file that names
`python2.7` and a directory that holds `python3.11`. -/
theorem main_override_witness :
    main_resolve overrideWorld (cs "/usr/bin/python")
        = (some (some (cs "python3.9")), [Call.getenv (cs "EPYTHON")]) ∧
    ∀ c ∈ (main overrideWorld (cs "/usr/bin/python") [cs "-V"]).calls,
      c.isFopen = false ∧ c.isScandir = false :=
  main_override overrideWorld (cs "/usr/bin/python") [cs "-V"] (cs "python3.9")
    (by decide) (by decide)

/-- C6: when `EPYTHON` is unset or fails `valid_interpreter` and the
configuration file is a readable text, the value read from it is its first
line without the newline; when this value passes `valid_interpreter` it is the
resolved target and no directory is scanned (the calls are the `getenv` and
the `fopen`), and when it does not, the target is the result of
`find_latest`. -/
theorem main_config_value (w : World) (argv0 : CString) (bytes : List Char)
    (he : valid_interpreter (w.getenv (cs "EPYTHON")) = false)
    (hc : w.config = ConfigFile.content bytes) (hwf : WellFormed bytes) :
    main_config w
      = (some (some (config_line bytes)),
          [Call.getenv (cs "EPYTHON"), Call.fopen ENVD_CONFIG]) ∧
    (valid_interpreter (some (config_line bytes)) = true →
      main_resolve w argv0
        = (some (some (config_line bytes)),
            [Call.getenv (cs "EPYTHON"), Call.fopen ENVD_CONFIG])) ∧
    (valid_interpreter (some (config_line bytes)) = false →
      main_resolve w argv0
        = (some (find_latest w argv0).1,
            [Call.getenv (cs "EPYTHON"), Call.fopen ENVD_CONFIG]
              ++ (find_latest w argv0).2)) := by
  have hcfg := main_config_content w bytes he hc hwf
  exact ⟨hcfg, fun hv => main_resolve_valid w argv0 _ _ hcfg hv,
    fun hv => main_resolve_invalid w argv0 _ _ hcfg hv⟩

/-- C6, witness: a configuration file of two lines, the first `python3.9`. -/
theorem main_config_value_witness :
    config_line (cs "python3.9\npython2.7\n") = cs "python3.9" ∧
    main_resolve configWorld (cs "/usr/bin/python")
      = (some (some (config_line (cs "python3.9\npython2.7\n"))),
          [Call.getenv (cs "EPYTHON"), Call.fopen ENVD_CONFIG]) :=
  ⟨by decide,
   (main_config_value configWorld (cs "/usr/bin/python") (cs "python3.9\npython2.7\n")
      (by decide) rfl (by unfold WellFormed; decide)).2.1 (by decide)⟩

/-- In a list sorted by a reflexive relation every entry stands in the
relation to the last entry. -/
theorem pairwise_le_getLast {α : Type} (R : α → α → Prop) (hrefl : ∀ a, R a a)
    (l : List α) (hl : l.Pairwise R) (hne : l ≠ []) :
    ∀ x ∈ l, R x (l.getLast hne) := by
  intro x hx
  have hsplit := List.dropLast_append_getLast hne
  rw [← hsplit] at hl hx
  rw [List.mem_append, List.mem_singleton] at hx
  rcases hx with hx | hx
  · exact (List.pairwise_append.mp hl).2.2 x hx _ (List.mem_singleton_self _)
  · rw [hx]; exact hrefl _

/-- C8: when neither the override nor the configuration file supplies a valid
value and the directory to scan cannot be listed, or lists no name that
`get_version` accepts, `find_latest` returns `NULL` in both cases, and `main`
returns the status 127 without an `execv` or `execvp` call. -/
theorem main_no_candidate (w : World) (argv0 : CString) (args : List CString)
    (h : NoValidValue w)
    (hdir : w.readdir (find_latest_dir (find_path w argv0).1) = none ∨
      ∃ entries, w.readdir (find_latest_dir (find_path w argv0).1) = some entries ∧
        ∀ e ∈ entries, get_version e = -1) :
    (find_latest w argv0).1 = none ∧
    (main w argv0 args).outcome = Outcome.returned 127 ∧
    ∀ c ∈ (main w argv0 args).calls, c.isExec = false := by
  have hnone : (find_latest w argv0).1 = none := by
    rw [find_latest_fst]
    rcases hdir with hd | ⟨entries, hd, hrej⟩
    · rw [hd]
    · rw [hd]
      have hf : entries.filter filter_python = [] := by
        rw [List.filter_eq_nil_iff]
        intro e he
        simp [filter_python, hrej e he]
      simp only [hf]
      rfl
  have hres := main_resolve_scan w argv0 h
  rw [hnone] at hres
  have hmain := main_of_no_target w argv0 args _ hres
  refine ⟨hnone, by rw [hmain]; rfl, ?_⟩
  intro c hc
  rw [hmain] at hc
  simp only [List.cons_append, List.nil_append, List.mem_cons] at hc
  rcases hc with rfl | rfl | hc
  · rfl
  · rfl
  · exact (find_latest_calls w argv0 c hc).2

/-- C8, witness: nothing set, no configuration file, no directory listable. -/
theorem main_no_candidate_witness :
    (find_latest emptyWorld (cs "/usr/bin/python")).1 = none ∧
    (main emptyWorld (cs "/usr/bin/python") [cs "-V"]).outcome = Outcome.returned 127 ∧
    ∀ c ∈ (main emptyWorld (cs "/usr/bin/python") [cs "-V"]).calls, c.isExec = false :=
  main_no_candidate emptyWorld (cs "/usr/bin/python") [cs "-V"]
    ⟨by decide, Or.inl rfl⟩ (Or.inl rfl)

theorem not_mem_dot_of_isDigits {ds : List Char} (h : IsDigits ds) : '.' ∉ ds := by
  intro hm
  have := h.2 '.' hm
  rw [isdigit_dot] at this
  cases this

/-- A name of the spec's shape is written with one pair of digit runs only. -/
theorem versionName_inj (ma mi ma1 mi1 : List Char) (hma : IsDigits ma) (hmi : IsDigits mi)
    (h : versionName ma mi = versionName ma1 mi1) : ma = ma1 ∧ mi = mi1 := by
  unfold versionName at h
  rw [List.append_assoc, List.append_assoc] at h
  have h2 := List.append_cancel_left h
  have h3 := (List.append_cons_inj_of_not_mem (not_mem_dot_of_isDigits hma)
    (not_mem_dot_of_isDigits hmi)).mp h2
  exact ⟨h3.1, h3.2.2⟩

theorem scanWorld_bound (ma mi : List Char) (hma : IsDigits ma) (hmi : IsDigits mi)
    (hmem : versionName ma mi ∈ [cs "python3.10", cs "README", cs "python9.1", cs "python2.6"]) :
    decimal ma < 8388608 ∧ decimal mi < 256 := by
  simp only [List.mem_cons, List.mem_singleton, List.not_mem_nil, or_false] at hmem
  rcases hmem with h | h | h | h
  · have e : cs "python3.10" = versionName (cs "3") (cs "10") := rfl
    rw [e] at h
    obtain ⟨h1, h2⟩ := versionName_inj ma mi _ _ hma hmi h
    rw [h1, h2]
    decide
  · exfalso
    simp [versionName, python_eq, cs] at h
  · have e : cs "python9.1" = versionName (cs "9") (cs "1") := rfl
    rw [e] at h
    obtain ⟨h1, h2⟩ := versionName_inj ma mi _ _ hma hmi h
    rw [h1, h2]
    decide
  · have e : cs "python2.6" = versionName (cs "2") (cs "6") := rfl
    rw [e] at h
    obtain ⟨h1, h2⟩ := versionName_inj ma mi _ _ hma hmi h
    rw [h1, h2]
    decide

set_option maxRecDepth 100000 in
theorem dotsWorld_bound (ma mi : List Char) (hma : IsDigits ma) (hmi : IsDigits mi)
    (hmem : versionName ma mi
      ∈ [cs ".", cs "..", cs "python2.6", cs "python16777215.255"])
    (hacc : get_version (versionName ma mi) ≠ -1) :
    decimal ma < 8388608 ∧ decimal mi < 256 := by
  simp only [List.mem_cons, List.mem_singleton, List.not_mem_nil, or_false] at hmem
  rcases hmem with h | h | h | h
  · exfalso
    simp [versionName, python_eq, cs] at h
  · exfalso
    simp [versionName, python_eq, cs] at h
  · have e : cs "python2.6" = versionName (cs "2") (cs "6") := rfl
    rw [e] at h
    obtain ⟨h1, h2⟩ := versionName_inj ma mi _ _ hma hmi h
    rw [h1, h2]
    decide
  · exfalso
    rw [h] at hacc
    exact hacc (by decide)

/-- C7, counterexample: with nothing set, no configuration file and a
directory that lists `python3.0` and `python2.300`, the resolved target is
`python2.300`, although `python3.0` is accepted too and `(3, 0)` is above
`(2, 300)`: the codes are 812 and 768. -/
theorem main_scan_minor_clash :
    clashWorld.readdir (find_latest_dir (find_path clashWorld (cs "/usr/bin/python")).1)
      = some [versionName (cs "3") (cs "0"), versionName (cs "2") (cs "300")] ∧
    get_version (versionName (cs "3") (cs "0")) ≠ -1 ∧
    get_version (versionName (cs "2") (cs "300")) ≠ -1 ∧
    (main_resolve clashWorld (cs "/usr/bin/python")).1
      = some (some (versionName (cs "2") (cs "300"))) ∧
    decimal (cs "2") < decimal (cs "3") := by
  decide

/-- C7 (amended): when neither the override nor the configuration file
supplies a valid value and the scanned directory lists at least one name that
`get_version` accepts, and every accepted entry has a major number below
`2^23` and a minor number below 256 (entries that `get_version` rejects are
not constrained), the resolved target is an accepted entry of the directory
whose `(major, minor)` is the numeric maximum over all accepted entries; for a directory that holds `python2.6`, `python3.10` and `python9.1`,
in any order, the target is `python9.1`. -/
theorem main_scan_latest (w : World) (argv0 : CString) (h : NoValidValue w) :
    (∀ entries : List CString,
      w.readdir (find_latest_dir (find_path w argv0).1) = some entries →
      (∃ e ∈ entries, get_version e ≠ -1) →
      (∀ ma mi, IsDigits ma → IsDigits mi → versionName ma mi ∈ entries →
        get_version (versionName ma mi) ≠ -1 →
        decimal ma < 8388608 ∧ decimal mi < 256) →
      ∃ ma mi, IsDigits ma ∧ IsDigits mi ∧ versionName ma mi ∈ entries ∧
        get_version (versionName ma mi) ≠ -1 ∧
        (main_resolve w argv0).1 = some (some (versionName ma mi)) ∧
        ∀ mb nb, IsDigits mb → IsDigits nb → versionName mb nb ∈ entries →
          get_version (versionName mb nb) ≠ -1 →
          (decimal mb < decimal ma ∨ (decimal mb = decimal ma ∧ decimal nb ≤ decimal mi))) ∧
    (∀ entries : List CString,
      w.readdir (find_latest_dir (find_path w argv0).1) = some entries →
      entries.Perm [cs "python2.6", cs "python3.10", cs "python9.1"] →
      (main_resolve w argv0).1 = some (some (cs "python9.1"))) := by
  have hres : (main_resolve w argv0).1 = some (find_latest w argv0).1 := by
    rw [main_resolve_scan w argv0 h]
  constructor
  · intro entries hdir ⟨e0, he0, hacc0⟩ hbound
    have hcode : ∀ x ∈ entries.filter filter_python,
        ∃ ma mi, IsDigits ma ∧ IsDigits mi ∧ x = versionName ma mi ∧
          decimal ma < 8388608 ∧ decimal mi < 256 ∧
          get_version x = ((decimal ma * 256 + decimal mi : Nat) : Int) := by
      intro x hx
      obtain ⟨hxe, hxf⟩ := List.mem_filter.mp hx
      have hacc : get_version x ≠ -1 := by simpa [filter_python] using hxf
      obtain ⟨ma, mi, hma, hmi, rfl⟩ := get_version_ne x hacc
      obtain ⟨ha, hb⟩ := hbound ma mi hma hmi hxe hacc
      exact ⟨ma, mi, hma, hmi, rfl, ha, hb, get_version_small ma mi hma hmi ha hb⟩
    have hrange : ∀ x ∈ entries.filter filter_python, InRange (get_version x) := by
      intro x hx
      obtain ⟨ma, mi, _, _, _, ha, hb, hv⟩ := hcode x hx
      rw [hv]
      unfold InRange
      omega
    have hperm := qsort_perm sort_python (entries.filter filter_python)
    have hsorted := qsort_pairwise (entries.filter filter_python) hrange
    have hmem0 : e0 ∈ qsort sort_python (entries.filter filter_python) :=
      hperm.mem_iff.mpr (List.mem_filter.mpr ⟨he0, by simpa [filter_python] using hacc0⟩)
    have hne : qsort sort_python (entries.filter filter_python) ≠ [] :=
      List.ne_nil_of_mem hmem0
    have hlast := pairwise_le_getLast (fun a b : CString => get_version a ≤ get_version b)
      (fun a => le_refl _) _ hsorted hne
    have htm : (qsort sort_python (entries.filter filter_python)).getLast hne
        ∈ entries.filter filter_python :=
      hperm.mem_iff.mp (List.getLast_mem hne)
    obtain ⟨ma, mi, hma, hmi, ht, ha, hb, hv⟩ := hcode _ htm
    refine ⟨ma, mi, hma, hmi, ?_, ?_, ?_, ?_⟩
    · rw [← ht]; exact (List.mem_filter.mp htm).1
    · rw [get_version_small ma mi hma hmi ha hb]; omega
    · rw [hres, find_latest_fst, hdir]
      simp only [List.getLast?_eq_getLast _ hne, ht]
    · intro mb nb hmb hnb hmem haccb
      obtain ⟨hb1, hb2⟩ := hbound mb nb hmb hnb hmem haccb
      have hvb := get_version_small mb nb hmb hnb hb1 hb2
      have hin : versionName mb nb ∈ qsort sort_python (entries.filter filter_python) :=
        hperm.mem_iff.mpr (List.mem_filter.mpr ⟨hmem, by simpa [filter_python] using haccb⟩)
      have hle := hlast _ hin
      simp only [] at hle
      rw [hvb, hv] at hle
      omega
  · intro entries hdir hp
    have hf : (entries.filter filter_python).Perm
        [cs "python2.6", cs "python3.10", cs "python9.1"] := by
      have h1 := hp.filter filter_python
      have h2 : [cs "python2.6", cs "python3.10", cs "python9.1"].filter filter_python
          = [cs "python2.6", cs "python3.10", cs "python9.1"] := by decide
      rw [h2] at h1
      exact h1
    have hthree : ∀ x ∈ [cs "python2.6", cs "python3.10", cs "python9.1"],
        InRange (get_version x) := by
      unfold InRange
      decide
    have hrange : ∀ x ∈ entries.filter filter_python, InRange (get_version x) :=
      fun x hx => hthree x (hf.subset hx)
    have hq : qsort sort_python (entries.filter filter_python)
        = [cs "python2.6", cs "python3.10", cs "python9.1"] :=
      sorted_rearrangement_unique _ _ (by unfold List.Sorted; decide)
        ((qsort_perm sort_python _).trans hf) (qsort_pairwise _ hrange)
    rw [hres, find_latest_fst, hdir]
    simp only [hq]
    rfl

/-- C7, witness: nothing set, no configuration file, and a directory that
lists `.`, `..`, `python2.6` and `python16777215.255`; the last name has the
spec's shape and a major number above `2^23`, and `get_version` rejects it. -/
theorem main_scan_latest_witness :
    ∃ ma mi, IsDigits ma ∧ IsDigits mi ∧
      versionName ma mi ∈ [cs ".", cs "..", cs "python2.6", cs "python16777215.255"] ∧
      get_version (versionName ma mi) ≠ -1 ∧
      (main_resolve dotsWorld (cs "/usr/bin/python")).1 = some (some (versionName ma mi)) ∧
      ∀ mb nb, IsDigits mb → IsDigits nb →
        versionName mb nb ∈ [cs ".", cs "..", cs "python2.6", cs "python16777215.255"] →
        get_version (versionName mb nb) ≠ -1 →
        (decimal mb < decimal ma ∨ (decimal mb = decimal ma ∧ decimal nb ≤ decimal mi)) :=
  (main_scan_latest dotsWorld (cs "/usr/bin/python") ⟨by decide, Or.inl rfl⟩).1
    [cs ".", cs "..", cs "python2.6", cs "python16777215.255"] rfl
    ⟨cs "python2.6", by decide, by decide⟩ dotsWorld_bound

/-! ## The claims on the segments of `PATH` -/

/-- C11, the code at the failing input: with `PATH` set to `:/bin` and a file
`python` in the current directory only, `find_path` tests `/bin/python` alone
and returns `NULL`; with the empty segment written out, `PATH` set to
`.:/bin`, it tests `./python` and returns `.`. The tokens of `:/bin` do not
include the empty segment, so the replacement by `.` on line 62 is never
reached. -/
theorem find_path_empty_segment_skipped :
    strtok_r ':' [] (cs ":/bin") = [cs "/bin"] ∧
    find_path colonWorld (cs "python")
      = (none, [Call.getenv (cs "PATH"), Call.stat (cs "/bin/python")]) ∧
    find_path dotWorld (cs "python")
      = (some (cs "."), [Call.getenv (cs "PATH"), Call.stat (cs "./python")]) := by
  decide

theorem default_path_tokens :
    strtok_r ':' [] (cs ":/bin:/usr/bin") = [cs "/bin", cs "/usr/bin"] := by
  decide

/-- C12: for every invoked name without `/`, when `PATH` is unset `find_path`
returns and calls what it does in a world where `PATH` holds the default
`:/bin:/usr/bin`; the directories it tests are `/bin` and then, when the name
is not found there, `/usr/bin`, and no other one. -/
theorem find_path_unset (w : World) (exe : CString) (hexe : '/' ∉ exe)
    (hpath : w.getenv (cs "PATH") = none) :
    (∀ w1 : World, w1.getenv (cs "PATH") = some (cs ":/bin:/usr/bin") →
      w1.stat_reg_or_lnk = w.stat_reg_or_lnk → find_path w1 exe = find_path w exe) ∧
    (find_path w exe).1
      = [cs "/bin", cs "/usr/bin"].find?
          (fun dir => w.stat_reg_or_lnk (dir ++ cs "/" ++ exe)) ∧
    (find_path w exe).2
      = Call.getenv (cs "PATH") ::
          (if w.stat_reg_or_lnk (cs "/bin/" ++ exe) then [Call.stat (cs "/bin/" ++ exe)]
           else [Call.stat (cs "/bin/" ++ exe), Call.stat (cs "/usr/bin/" ++ exe)]) := by
  have hs := (strrchr_eq_none '/' exe).mpr hexe
  have h1 : dir_cat (cs "/bin") exe = cs "/bin/" ++ exe := by simp [dir_cat, cs]
  have h2 : dir_cat (cs "/usr/bin") exe = cs "/usr/bin/" ++ exe := by simp [dir_cat, cs]
  have h3 : cs "/bin" ++ cs "/" ++ exe = cs "/bin/" ++ exe := by simp [cs]
  have h4 : cs "/usr/bin" ++ cs "/" ++ exe = cs "/usr/bin/" ++ exe := by simp [cs]
  have hb : ¬ cs "/bin" = [] := by decide
  have hu : ¬ cs "/usr/bin" = [] := by decide
  have hw : find_path w exe
      = ((find_path_loop w exe [cs "/bin", cs "/usr/bin"]).1,
          Call.getenv (cs "PATH") :: (find_path_loop w exe [cs "/bin", cs "/usr/bin"]).2) := by
    unfold find_path
    rw [hs]
    simp only [hpath, default_path_tokens]
  refine ⟨?_, ?_, ?_⟩
  · intro w1 hp1 hst
    rw [hw]
    unfold find_path
    rw [hs]
    simp only [hp1, default_path_tokens]
    simp only [find_path_loop, hst]
  · rw [hw]
    simp only [find_path_loop, hb, hu, if_false, h1, h2, List.find?_cons, h3, h4,
      List.find?_nil]
    by_cases ha : w.stat_reg_or_lnk (cs "/bin/" ++ exe) = true
    · simp [ha]
    · by_cases hc : w.stat_reg_or_lnk (cs "/usr/bin/" ++ exe) = true
      · simp [ha, hc]
      · simp [ha, hc]
  · rw [hw]
    simp only [find_path_loop, hb, hu, if_false, h1, h2]
    by_cases ha : w.stat_reg_or_lnk (cs "/bin/" ++ exe) = true
    · simp [ha]
    · by_cases hc : w.stat_reg_or_lnk (cs "/usr/bin/" ++ exe) = true
      · simp [ha, hc]
      · simp [ha, hc]

/-- C12, witness: `python` looked up with `PATH` unset when only
`/usr/bin/python` exists: both directories are tested and the result is
`/usr/bin`. -/
theorem find_path_unset_witness :
    (find_path unsetPathWorld (cs "python")).1 = some (cs "/usr/bin") ∧
    (find_path unsetPathWorld (cs "python")).2
      = Call.getenv (cs "PATH") ::
          (if unsetPathWorld.stat_reg_or_lnk (cs "/bin/" ++ cs "python")
           then [Call.stat (cs "/bin/" ++ cs "python")]
           else [Call.stat (cs "/bin/" ++ cs "python"),
                 Call.stat (cs "/usr/bin/" ++ cs "python")]) :=
  ⟨by decide, (find_path_unset unsetPathWorld (cs "python") (by decide) rfl).2.2⟩

/-! ## Lemmas on the handoff -/

theorem strchr_eq_true (s : CString) (c : Char) : strchr s c = true ↔ c ∈ s := by
  unfold strchr
  simp

theorem main_of_target_slash (w : World) (argv0 : CString) (args : List CString)
    (target : CString) (calls : List Call)
    (h : main_resolve w argv0 = (some (some target), calls)) (hs : '/' ∈ target) :
    main w argv0 args
      = ⟨exec_outcome (w.execv target (argv0 :: args)),
          calls ++ [Call.execv target (argv0 :: args)]⟩ := by
  unfold main
  rw [if_neg program_description_length, h]
  dsimp only
  rw [if_pos ((strchr_eq_true target '/').mpr hs)]

theorem main_of_target_bare (w : World) (argv0 : CString) (args : List CString)
    (target : CString) (calls : List Call)
    (h : main_resolve w argv0 = (some (some target), calls)) (hs : '/' ∉ target) :
    main w argv0 args = main_bare w argv0 args target calls := by
  have hn : ¬ strchr target '/' = true := fun e => hs ((strchr_eq_true target '/').mp e)
  unfold main main_bare
  rw [if_neg program_description_length, h]
  dsimp only
  rw [if_neg hn]

theorem exec_outcome_cases (ok : Bool) :
    exec_outcome ok = Outcome.replaced ∨ exec_outcome ok = Outcome.returned 127 := by
  cases ok
  · right; rfl
  · left; rfl

theorem main_config_calls (w : World) :
    (main_config w).2 = [Call.getenv (cs "EPYTHON")] ∨
    (main_config w).2 = [Call.getenv (cs "EPYTHON"), Call.fopen ENVD_CONFIG] := by
  unfold main_config
  dsimp only
  by_cases hv : valid_interpreter (w.getenv (cs "EPYTHON")) = true
  · left
    rw [if_pos hv]
  · right
    rw [if_neg hv]
    cases w.config with
    | absent => rfl
    | unreadable => rfl
    | content bytes =>
      dsimp only
      cases fgets (bytes.length + 1) bytes <;> rfl

/-- A name `get_version` accepts passes `valid_interpreter`. -/
theorem valid_interpreter_of_get_version (s : CString) (h : get_version s ≠ -1) :
    valid_interpreter (some s) = true := by
  unfold get_version at h
  by_cases hg : valid_interpreter (some s) = false ∨ strncmp s python 6 ≠ 0
  · rw [if_pos hg] at h
    exact absurd rfl h
  · cases hv : valid_interpreter (some s) with
    | true => rfl
    | false => exact absurd (Or.inl hv) hg

/-- A name of the spec's shape contains no `/`. -/
theorem not_mem_slash_of_isVersionName (s : CString) (h : IsVersionName s) : '/' ∉ s := by
  obtain ⟨ma, mi, hma, hmi, rfl⟩ := h
  have hd : ∀ ds : List Char, IsDigits ds → '/' ∉ ds := by
    intro ds hds hm
    have := hds.2 '/' hm
    revert this
    decide
  have hp : '/' ∉ python := by decide
  unfold versionName
  simp only [List.mem_append, List.mem_cons, not_or]
  exact ⟨⟨hp, hd ma hma⟩, by decide, hd mi hmi⟩

/-- The name `find_latest` returns is an entry of the directory it scans, and
`get_version` accepts it. -/
theorem find_latest_some (w : World) (exe t : CString)
    (h : (find_latest w exe).1 = some t) :
    ∃ entries, w.readdir (find_latest_dir (find_path w exe).1) = some entries ∧
      t ∈ entries ∧ get_version t ≠ -1 := by
  rw [find_latest_fst] at h
  cases hd : w.readdir (find_latest_dir (find_path w exe).1) with
  | none => rw [hd] at h; cases h
  | some entries =>
    rw [hd] at h
    dsimp only at h
    have hm : t ∈ qsort sort_python (entries.filter filter_python) :=
      List.mem_of_getLast?_eq_some h
    have hf := (qsort_perm sort_python _).mem_iff.mp hm
    obtain ⟨h1, h2⟩ := List.mem_filter.mp hf
    exact ⟨entries, rfl, h1, by simpa [filter_python] using h2⟩

/-- A resolved target that contains a `/` comes from `EPYTHON` or from the
configuration file: the resolution made no call of `find_latest`. -/
theorem main_resolve_slash_calls (w : World) (argv0 : CString) (target : CString)
    (calls : List Call) (h : main_resolve w argv0 = (some (some target), calls))
    (hs : '/' ∈ target) :
    calls = [Call.getenv (cs "EPYTHON")] ∨
    calls = [Call.getenv (cs "EPYTHON"), Call.fopen ENVD_CONFIG] := by
  have hc := main_config_calls w
  cases hcfg : main_config w with
  | mk r c =>
    rw [hcfg] at hc
    cases r with
    | none =>
      unfold main_resolve at h
      rw [hcfg] at h
      cases h
    | some v =>
      by_cases hv : valid_interpreter v = true
      · rw [main_resolve_valid w argv0 v c hcfg hv] at h
        cases h
        exact hc
      · have hv2 : valid_interpreter v = false := by
          cases hb : valid_interpreter v with
          | true => exact absurd hb hv
          | false => rfl
        rw [main_resolve_invalid w argv0 v c hcfg hv2] at h
        have ht : (find_latest w argv0).1 = some target := by
          have := congrArg Prod.fst h
          simpa using this
        obtain ⟨_, _, _, hacc⟩ := find_latest_some w argv0 target ht
        exact absurd hs (not_mem_slash_of_isVersionName target (get_version_ne target hacc))

/-- The resolution makes no `exec` call. -/
theorem main_resolve_calls (w : World) (argv0 : CString) :
    ∀ c ∈ (main_resolve w argv0).2, c.isExec = false := by
  have hc := main_config_calls w
  have hcc : ∀ c ∈ (main_config w).2, c.isExec = false := by
    intro c hm
    rcases hc with e | e
    · rw [e, List.mem_singleton] at hm
      rw [hm]; rfl
    · rw [e] at hm
      simp only [List.mem_cons, List.mem_singleton, List.not_mem_nil, or_false] at hm
      rcases hm with rfl | rfl <;> rfl
  intro c hm
  cases hcfg : main_config w with
  | mk r calls =>
    rw [hcfg] at hcc
    cases r with
    | none =>
      unfold main_resolve at hm
      rw [hcfg] at hm
      exact hcc c hm
    | some v =>
      by_cases hv : valid_interpreter v = true
      · rw [main_resolve_valid w argv0 v calls hcfg hv] at hm
        exact hcc c hm
      · have hv2 : valid_interpreter v = false := by
          cases hb : valid_interpreter v with
          | true => exact absurd hb hv
          | false => rfl
        rw [main_resolve_invalid w argv0 v calls hcfg hv2, List.mem_append] at hm
        rcases hm with hm | hm
        · exact hcc c hm
        · exact (find_latest_calls w argv0 c hm).2

/-- The outcomes of the handoff of a target without `/`. -/
theorem main_bare_outcome (w : World) (argv0 : CString) (args : List CString)
    (target : CString) (calls : List Call) :
    (main_bare w argv0 args target calls).outcome = Outcome.fault ∨
    (main_bare w argv0 args target calls).outcome = Outcome.replaced ∨
    (main_bare w argv0 args target calls).outcome = Outcome.returned 127 := by
  unfold main_bare
  cases (find_path w argv0).1 with
  | none => left; rfl
  | some path =>
    dsimp only
    by_cases hne : path ≠ []
    · rw [if_pos hne]
      exact Or.inr (exec_outcome_cases _)
    · rw [if_neg hne]
      exact Or.inr (exec_outcome_cases _)

/-- The handoff of a target without `/` by name: when `find_path` returns the
empty string, `main` calls `execvp` on the target. -/
theorem main_bare_execvp (w : World) (argv0 : CString) (args : List CString)
    (target : CString) (calls : List Call) (h : (find_path w argv0).1 = some []) :
    main_bare w argv0 args target calls
      = ⟨exec_outcome (w.execvp target (argv0 :: args)),
          calls ++ (find_path w argv0).2 ++ [Call.execvp target (argv0 :: args)]⟩ := by
  unfold main_bare
  rw [h]
  rfl

/-! ## The claims on the handoff -/

/-- C13: when the resolved target contains a `/`, `main` calls `execv` on
exactly that target with the argument vector it received, element 0 included;
the calls of the run are the `getenv` of `EPYTHON`, the `fopen` of the
configuration file when `EPYTHON` was not valid, and this `execv`, so
`find_path` is not consulted; when the `execv` fails `main` returns 127. -/
theorem main_exec_target (w : World) (argv0 : CString) (args : List CString)
    (target : CString) (calls : List Call)
    (h : main_resolve w argv0 = (some (some target), calls)) (hs : '/' ∈ target) :
    main w argv0 args
      = ⟨exec_outcome (w.execv target (argv0 :: args)),
          calls ++ [Call.execv target (argv0 :: args)]⟩ ∧
    (calls = [Call.getenv (cs "EPYTHON")] ∨
      calls = [Call.getenv (cs "EPYTHON"), Call.fopen ENVD_CONFIG]) ∧
    (w.execv target (argv0 :: args) = false →
      (main w argv0 args).outcome = Outcome.returned 127) := by
  have hm := main_of_target_slash w argv0 args target calls h hs
  refine ⟨hm, main_resolve_slash_calls w argv0 target calls h hs, ?_⟩
  intro hf
  rw [hm, hf]
  rfl

/-- C13, witness: `EPYTHON=/opt/python/bin/python3`, invoked as `python -V`. -/
theorem main_exec_target_witness :
    main absoluteWorld (cs "python") [cs "-V"]
      = ⟨exec_outcome (absoluteWorld.execv (cs "/opt/python/bin/python3")
            (cs "python" :: [cs "-V"])),
          [Call.getenv (cs "EPYTHON")]
            ++ [Call.execv (cs "/opt/python/bin/python3") (cs "python" :: [cs "-V"])]⟩ ∧
    (main absoluteWorld (cs "python") [cs "-V"]).outcome = Outcome.returned 127 :=
  ⟨(main_exec_target absoluteWorld (cs "python") [cs "-V"] (cs "/opt/python/bin/python3")
      [Call.getenv (cs "EPYTHON")] (by decide) (by decide)).1,
   (main_exec_target absoluteWorld (cs "python") [cs "-V"] (cs "/opt/python/bin/python3")
      [Call.getenv (cs "EPYTHON")] (by decide) (by decide)).2.2 rfl⟩

/-- C14: when the resolved target has no `/` and `find_path` on `argv[0]`
returns a non-empty directory, `main` calls `execv` on exactly directory +
`/` + target with the argument vector unchanged; when that call fails `main`
returns 127, and the run contains no `execvp` call. -/
theorem main_exec_dir (w : World) (argv0 : CString) (args : List CString)
    (target dir : CString) (calls : List Call)
    (h : main_resolve w argv0 = (some (some target), calls)) (hs : '/' ∉ target)
    (hd : (find_path w argv0).1 = some dir) (hne : dir ≠ []) :
    main w argv0 args
      = ⟨exec_outcome (w.execv (dir ++ cs "/" ++ target) (argv0 :: args)),
          calls ++ (find_path w argv0).2
            ++ [Call.execv (dir ++ cs "/" ++ target) (argv0 :: args)]⟩ ∧
    (w.execv (dir ++ cs "/" ++ target) (argv0 :: args) = false →
      (main w argv0 args).outcome = Outcome.returned 127) ∧
    (∀ file argv, Call.execvp file argv ∉ (main w argv0 args).calls) := by
  have hcat : dir_cat dir target = dir ++ cs "/" ++ target := by simp [dir_cat, cs]
  have hm : main w argv0 args
      = ⟨exec_outcome (w.execv (dir ++ cs "/" ++ target) (argv0 :: args)),
          calls ++ (find_path w argv0).2
            ++ [Call.execv (dir ++ cs "/" ++ target) (argv0 :: args)]⟩ := by
    rw [main_of_target_bare w argv0 args target calls h hs]
    unfold main_bare
    rw [hd]
    dsimp only
    rw [if_pos hne, hcat]
  refine ⟨hm, ?_, ?_⟩
  · intro hf
    rw [hm, hf]
    rfl
  · intro file argv hmem
    rw [hm] at hmem
    simp only [List.mem_append, List.mem_singleton, reduceCtorEq, or_false] at hmem
    rcases hmem with hmem | hmem
    · have hc := main_resolve_calls w argv0 _ (by rw [h]; exact hmem)
      simp [Call.isExec] at hc
    · have hc := (find_path_calls w argv0 _ hmem).2.2
      simp [Call.isExec] at hc

/-- C14, witness: `EPYTHON=python3.9`, invoked as `/usr/bin/python -V`. -/
theorem main_exec_dir_witness :
    main overrideWorld (cs "/usr/bin/python") [cs "-V"]
      = ⟨exec_outcome (overrideWorld.execv (cs "/usr/bin" ++ cs "/" ++ cs "python3.9")
            (cs "/usr/bin/python" :: [cs "-V"])),
          [Call.getenv (cs "EPYTHON")] ++ (find_path overrideWorld (cs "/usr/bin/python")).2
            ++ [Call.execv (cs "/usr/bin" ++ cs "/" ++ cs "python3.9")
                  (cs "/usr/bin/python" :: [cs "-V"])]⟩ ∧
    (main overrideWorld (cs "/usr/bin/python") [cs "-V"]).outcome = Outcome.returned 127 :=
  ⟨(main_exec_dir overrideWorld (cs "/usr/bin/python") [cs "-V"] (cs "python3.9")
      (cs "/usr/bin") [Call.getenv (cs "EPYTHON")] (by decide) (by decide) (by decide)
      (by decide)).1,
   (main_exec_dir overrideWorld (cs "/usr/bin/python") [cs "-V"] (cs "python3.9")
      (cs "/usr/bin") [Call.getenv (cs "EPYTHON")] (by decide) (by decide) (by decide)
      (by decide)).2.1 rfl⟩

/-- C15, the code at the failing input: with `EPYTHON=python3.9`, `PATH`
unset and the wrapper invoked as `python` with no `python` under `/bin` or
`/usr/bin`, the target has no `/` and `find_path` returns `NULL`; `main`
dereferences it on line 207 and faults, with no `exec` call made. On the same
input `find_latest` tests its own `find_path` result for `NULL` and goes on
to scan `/usr/bin`. -/
theorem main_bare_name_fault :
    main_resolve bareWorld (cs "python")
      = (some (some (cs "python3.9")), [Call.getenv (cs "EPYTHON")]) ∧
    (find_path bareWorld (cs "python")).1 = none ∧
    main bareWorld (cs "python") [cs "-V"]
      = ⟨Outcome.fault,
          [Call.getenv (cs "EPYTHON"), Call.getenv (cs "PATH"),
           Call.stat (cs "/bin/python"), Call.stat (cs "/usr/bin/python")]⟩ ∧
    (find_latest bareWorld (cs "python")).2
      = [Call.getenv (cs "PATH"), Call.stat (cs "/bin/python"),
         Call.stat (cs "/usr/bin/python"), Call.scandir (cs "/usr/bin")] := by
  refine ⟨by decide, by decide, ?_, by decide⟩
  have h : (main bareWorld (cs "python") [cs "-V"]).outcome = Outcome.fault ∧
      (main bareWorld (cs "python") [cs "-V"]).calls
        = [Call.getenv (cs "EPYTHON"), Call.getenv (cs "PATH"),
           Call.stat (cs "/bin/python"), Call.stat (cs "/usr/bin/python")] := by
    decide
  cases hm : main bareWorld (cs "python") [cs "-V"] with
  | mk o c =>
    rw [hm] at h
    obtain ⟨h1, h2⟩ := h
    dsimp only at h1 h2
    rw [h1, h2]

/-- C16, the code at the failing input: with `EPYTHON` unset and a
configuration file that opens and cannot be read, `fgets` returns `NULL`,
`main` passes it to `strlen` on line 187 and faults; no directory is scanned.
With the file absent the target is `python3.9`, the result of the scan, and
so it is with an empty file. -/
theorem main_unreadable_config_fault :
    main_resolve unreadableWorld (cs "/usr/bin/python")
      = (none, [Call.getenv (cs "EPYTHON"), Call.fopen ENVD_CONFIG]) ∧
    (main unreadableWorld (cs "/usr/bin/python") [cs "-V"]).outcome = Outcome.fault ∧
    (main_resolve absentWorld (cs "/usr/bin/python")).1 = some (some (cs "python3.9")) ∧
    (main_resolve emptyConfigWorld (cs "/usr/bin/python")).1
      = some (some (cs "python3.9")) := by
  decide

/-- C17: on every run in which `main` returns, the status is 127: a run ends
with the status 127, with the process replaced by an `exec` call, or with a
fault, and in no other way. -/
theorem main_status (w : World) (argv0 : CString) (args : List CString) :
    (∀ status, (main w argv0 args).outcome = Outcome.returned status → status = 127) ∧
    ((main w argv0 args).outcome = Outcome.returned 127 ∨
      (main w argv0 args).outcome = Outcome.replaced ∨
      (main w argv0 args).outcome = Outcome.fault) := by
  have hcases : (main w argv0 args).outcome = Outcome.returned 127 ∨
      (main w argv0 args).outcome = Outcome.replaced ∨
      (main w argv0 args).outcome = Outcome.fault := by
    cases hr : main_resolve w argv0 with
    | mk r calls =>
      cases r with
      | none =>
        right; right
        unfold main
        rw [if_neg program_description_length, hr]
      | some t =>
        cases t with
        | none =>
          left
          rw [main_of_no_target w argv0 args calls hr]
          rfl
        | some target =>
          by_cases hs : '/' ∈ target
          · rw [main_of_target_slash w argv0 args target calls hr hs]
            rcases exec_outcome_cases (w.execv target (argv0 :: args)) with e | e
            · right; left; exact e
            · left; exact e
          · rw [main_of_target_bare w argv0 args target calls hr hs]
            rcases main_bare_outcome w argv0 args target calls with e | e | e
            · right; right; exact e
            · right; left; exact e
            · left; exact e
  refine ⟨?_, hcases⟩
  intro status hst
  rw [hst] at hcases
  rcases hcases with e | e | e
  · cases e; rfl
  · cases e
  · cases e

/-- C17, witness: nothing set, no configuration file, no directory listable:
`main` returns, and the status is 127. -/
theorem main_status_witness :
    (main emptyWorld (cs "/usr/bin/python") [cs "-V"]).outcome = Outcome.returned 127 ∧
    (127 : Int) = 127 :=
  ⟨by decide,
   (main_status emptyWorld (cs "/usr/bin/python") [cs "-V"]).1 127 (by decide)⟩

theorem le_decimalFrom (ds : List Char) : ∀ n : Nat, n ≤ decimalFrom n ds := by
  induction ds with
  | nil => intro n; exact le_refl n
  | cons c ds ih =>
    intro n
    rw [decimalFrom_cons]
    have := ih (10 * n + (c.toNat - 48))
    omega

theorem checked_of_range {x : Int} (h0 : -2147483648 ≤ x) (h1 : x < 2147483648) :
    checked x = some x := by
  unfold checked
  rw [if_pos ⟨h0, h1⟩]

theorem digit_checked_of (x a b : Int) (c : Char)
    (e1 : checked (x * 10) = some a) (e2 : checked (a + (c.toNat : Int)) = some b) :
    digit_checked x c = checked (b - 48) := by
  unfold digit_checked
  rw [e1]
  dsimp only
  rw [e2]

theorem pack_checked_of (major minor : Int) (h0 : 0 ≤ major)
    (h1 : major * 256 < 2147483648) :
    pack_checked major minor = some (int_or (major * 256) minor) := by
  unfold pack_checked
  rw [if_pos ⟨h0, h1⟩]

theorem get_version_minor_checked_last (major minor minor1 : Int) (c : Char)
    (e : digit_checked minor c = some minor1) :
    get_version_minor_checked major minor [c] = pack_checked major minor1 := by
  unfold get_version_minor_checked
  rw [e]

theorem get_version_minor_checked_step (major minor minor1 : Int) (c d : Char)
    (rest : CString) (e : digit_checked minor c = some minor1) (hd : isdigit d = true) :
    get_version_minor_checked major minor (c :: d :: rest)
      = get_version_minor_checked major minor1 (d :: rest) := by
  conv_lhs => unfold get_version_minor_checked
  rw [e]
  dsimp only
  rw [if_pos hd]

theorem get_version_major_checked_step (major major1 : Int) (c d : Char)
    (rest : CString) (e : digit_checked major c = some major1) (hd : isdigit d = true) :
    get_version_major_checked major (c :: d :: rest)
      = get_version_major_checked major1 (d :: rest) := by
  conv_lhs => unfold get_version_major_checked
  rw [e]
  dsimp only
  rw [if_pos hd]

theorem get_version_major_checked_dot (major major1 : Int) (c d : Char)
    (rest : CString) (e : digit_checked major c = some major1) (hd : isdigit d = true) :
    get_version_major_checked major (c :: '.' :: d :: rest)
      = get_version_minor_checked major1 0 (d :: rest) := by
  conv_lhs => unfold get_version_major_checked
  rw [e]
  dsimp only
  rw [if_neg (by rw [isdigit_dot]; simp), if_neg (by simp), if_pos hd]

/-- One round of `x = x * 10 + c - '0'` on a digit does not overflow when the
new value is below `2^31 - 48`. -/
theorem digit_checked_eq (n : Nat) (c : Char) (hc : isdigit c = true)
    (hn : 10 * n + (c.toNat - 48) < 2147483600) :
    digit_checked (n : Int) c = some (((10 * n + (c.toNat - 48) : Nat) : Int)) := by
  obtain ⟨h48, h57⟩ := isdigit_toNat hc
  have e1 : checked ((n : Int) * 10) = some ((n : Int) * 10) :=
    checked_of_range (by omega) (by omega)
  have e2 : checked ((n : Int) * 10 + (c.toNat : Int))
      = some ((n : Int) * 10 + (c.toNat : Int)) :=
    checked_of_range (by omega) (by omega)
  have e3 : checked ((n : Int) * 10 + (c.toNat : Int) - 48)
      = some ((n : Int) * 10 + (c.toNat : Int) - 48) :=
    checked_of_range (by omega) (by omega)
  have e4 : (n : Int) * 10 + (c.toNat : Int) - 48
      = ((10 * n + (c.toNat - 48) : Nat) : Int) := by
    omega
  rw [digit_checked_of _ _ _ c e1 e2, e3, e4]

theorem get_version_minor_checked_digits (major : Nat) (hmajor : major < 8388608)
    (ds : List Char) :
    ∀ (c : Char) (n : Nat), isdigit c = true → (∀ d ∈ ds, isdigit d = true) →
      decimalFrom n (c :: ds) < 2147483600 →
      get_version_minor_checked (major : Int) (n : Int) (c :: ds)
        = some (int_or ((major : Int) * 256) ((decimalFrom n (c :: ds) : Nat) : Int)) := by
  induction ds with
  | nil =>
    intro c n hc _ hb
    rw [decimalFrom_cons] at hb ⊢
    have hb2 : 10 * n + (c.toNat - 48) < 2147483600 := hb
    rw [get_version_minor_checked_last _ _ _ c (digit_checked_eq n c hc hb2),
      pack_checked_of _ _ (by omega) (by omega)]
    rfl
  | cons d ds ih =>
    intro c n hc hds hb
    have hd : isdigit d = true := hds d (List.mem_cons_self d ds)
    have hrest : ∀ e ∈ ds, isdigit e = true := fun e he => hds e (List.mem_cons_of_mem _ he)
    rw [decimalFrom_cons] at hb ⊢
    have hle := le_decimalFrom (d :: ds) (10 * n + (c.toNat - 48))
    rw [get_version_minor_checked_step _ _ _ c d ds
      (digit_checked_eq n c hc (by omega)) hd]
    exact ih d (10 * n + (c.toNat - 48)) hd hrest hb

theorem get_version_major_checked_digits (mi : List Char) (hmi : IsDigits mi)
    (hminor : decimal mi < 2147483600) (ds : List Char) :
    ∀ (c : Char) (n : Nat), isdigit c = true → (∀ d ∈ ds, isdigit d = true) →
      decimalFrom n (c :: ds) < 8388608 →
      get_version_major_checked (n : Int) (c :: (ds ++ '.' :: mi))
        = some (int_or (((decimalFrom n (c :: ds) : Nat) : Int) * 256)
            ((decimal mi : Nat) : Int)) := by
  induction ds with
  | nil =>
    intro c n hc _ hb
    obtain ⟨hne, hdig⟩ := hmi
    cases mi with
    | nil => exact absurd rfl hne
    | cons e mi =>
      have he : isdigit e = true := hdig e (List.mem_cons_self e mi)
      have hrest : ∀ x ∈ mi, isdigit x = true := fun x hx => hdig x (List.mem_cons_of_mem _ hx)
      rw [decimalFrom_cons] at hb ⊢
      have hb2 : 10 * n + (c.toNat - 48) < 8388608 := hb
      have h0 : (0 : Int) = ((0 : Nat) : Int) := rfl
      rw [List.nil_append, get_version_major_checked_dot _ _ c e mi
        (digit_checked_eq n c hc (by omega)) he, h0]
      exact get_version_minor_checked_digits _ hb2 mi e 0 he hrest hminor
  | cons d ds ih =>
    intro c n hc hds hb
    have hd : isdigit d = true := hds d (List.mem_cons_self d ds)
    have hrest : ∀ e ∈ ds, isdigit e = true := fun e he => hds e (List.mem_cons_of_mem _ he)
    rw [decimalFrom_cons] at hb ⊢
    have hle := le_decimalFrom (d :: ds) (10 * n + (c.toNat - 48))
    rw [List.cons_append, get_version_major_checked_step _ _ c d _
      (digit_checked_eq n c hc (by omega)) hd]
    exact ih d (10 * n + (c.toNat - 48)) hd hrest hb

/-- On a name of the spec's shape with a major number below `2^23` and a
minor number below 256 no operation of `get_version` overflows, and the value
is `major * 256 + minor`. -/
theorem get_version_checked_small (ma mi : List Char) (hma : IsDigits ma) (hmi : IsDigits mi)
    (ha : decimal ma < 8388608) (hb : decimal mi < 256) :
    get_version_checked (versionName ma mi)
      = some (((decimal ma * 256 + decimal mi : Nat) : Int)) := by
  have hacc : get_version (versionName ma mi) ≠ -1 := by
    rw [get_version_small ma mi hma hmi ha hb]; omega
  have hv := valid_interpreter_of_get_version _ hacc
  have hor : int_or (((decimal ma : Nat) : Int) * 256) ((decimal mi : Nat) : Int)
      = ((decimal ma * 256 + decimal mi : Nat) : Int) := by
    have h1 : ((decimal ma : Nat) : Int) * 256 = ((decimal ma * 256 : Nat) : Int) := by
      push_cast; rfl
    rw [h1, int_or_natCast (by omega) (by omega)]
    have h := Nat.mul_add_lt_is_or (show decimal mi < 2 ^ 8 by simpa using hb) (decimal ma)
    have e : (2 : Nat) ^ 8 = 256 := by norm_num
    rw [e] at h
    rw [Nat.mul_comm (decimal ma) 256, h]
  rw [← hor]
  obtain ⟨hne, hdig⟩ := hma
  cases ma with
  | nil => exact absurd rfl hne
  | cons c ds =>
    have hc : isdigit c = true := hdig c (List.mem_cons_self c ds)
    have hrest : ∀ x ∈ ds, isdigit x = true := fun x hx => hdig x (List.mem_cons_of_mem _ hx)
    have hs : strncmp (versionName (c :: ds) mi) python 6 = 0 := by
      rw [strncmp_python]
      simp [versionName, python_eq]
    have hdrop : (versionName (c :: ds) mi).drop 6 = c :: (ds ++ '.' :: mi) := by
      simp [versionName, python_eq]
    have h0 : (0 : Int) = ((0 : Nat) : Int) := rfl
    unfold get_version_checked
    rw [if_neg (by simp [hv, hs]), hdrop]
    dsimp only
    rw [if_pos hc, h0]
    exact get_version_major_checked_digits mi hmi (by omega) ds c 0 hc hrest ha

theorem isDigits_cs_10 : IsDigits (cs "10") := by
  unfold IsDigits; decide

theorem isDigits_cs_1 : IsDigits (cs "1") := by
  unfold IsDigits; decide

/-! ## The claims on the codes and on the scanned target -/

/-- C19: for two names of the spec's shape whose major numbers are below
`2^23` and whose minor numbers are below 256, `get_version` returns
`major * 256 + minor`, and no operation of its computation overflows; the
code of the first is below the code of the second exactly when the first
`(major, minor)` is lexicographically below the second, and the codes are
equal exactly when the pairs are. -/
theorem get_version_code (ma mi mb nb : List Char)
    (hma : IsDigits ma) (hmi : IsDigits mi) (hmb : IsDigits mb) (hnb : IsDigits nb)
    (ha : decimal ma < 8388608) (hi : decimal mi < 256)
    (hb : decimal mb < 8388608) (hn : decimal nb < 256) :
    get_version (versionName ma mi) = ((decimal ma * 256 + decimal mi : Nat) : Int) ∧
    get_version (versionName mb nb) = ((decimal mb * 256 + decimal nb : Nat) : Int) ∧
    get_version_checked (versionName ma mi) = some (get_version (versionName ma mi)) ∧
    get_version_checked (versionName mb nb) = some (get_version (versionName mb nb)) ∧
    (get_version (versionName ma mi) < get_version (versionName mb nb) ↔
      (decimal ma < decimal mb ∨ (decimal ma = decimal mb ∧ decimal mi < decimal nb))) ∧
    (get_version (versionName ma mi) = get_version (versionName mb nb) ↔
      (decimal ma = decimal mb ∧ decimal mi = decimal nb)) := by
  have ea := get_version_small ma mi hma hmi ha hi
  have eb := get_version_small mb nb hmb hnb hb hn
  refine ⟨ea, eb, ?_, ?_, ?_, ?_⟩
  · rw [ea]; exact get_version_checked_small ma mi hma hmi ha hi
  · rw [eb]; exact get_version_checked_small mb nb hmb hnb hb hn
  · rw [ea, eb]; omega
  · rw [ea, eb]; omega

/-- C19, witness: `python2.10` against `python10.1`. -/
theorem get_version_code_witness :
    get_version (versionName (cs "2") (cs "10")) < get_version (versionName (cs "10") (cs "1")) ↔
      (decimal (cs "2") < decimal (cs "10") ∨
        (decimal (cs "2") = decimal (cs "10") ∧ decimal (cs "10") < decimal (cs "1"))) :=
  (get_version_code (cs "2") (cs "10") (cs "10") (cs "1") isDigits_cs_2 isDigits_cs_10
    isDigits_cs_10 isDigits_cs_1 (by decide) (by decide) (by decide) (by decide)).2.2.2.2.1

/-- C20: a name `find_latest` returns is an entry of the directory it scans
that `get_version` accepts; it passes `valid_interpreter`, contains no `/` and
is not `python`; when it is the resolved target, `main` hands it off through
the branches for a target without `/` (lines 206-214). -/
theorem find_latest_result (w : World) (argv0 : CString) (args : List CString)
    (t : CString) (h : (find_latest w argv0).1 = some t) :
    (∃ entries, w.readdir (find_latest_dir (find_path w argv0).1) = some entries ∧
      t ∈ entries) ∧
    get_version t ≠ -1 ∧
    valid_interpreter (some t) = true ∧
    '/' ∉ t ∧ strchr t '/' = false ∧
    t ≠ cs "python" ∧
    (∀ calls, main_resolve w argv0 = (some (some t), calls) →
      main w argv0 args = main_bare w argv0 args t calls) := by
  obtain ⟨entries, hdir, hmem, hacc⟩ := find_latest_some w argv0 t h
  have hslash : '/' ∉ t := not_mem_slash_of_isVersionName t (get_version_ne t hacc)
  refine ⟨⟨entries, hdir, hmem⟩, hacc, valid_interpreter_of_get_version t hacc, hslash,
    ?_, ?_, ?_⟩
  · cases hb : strchr t '/' with
    | false => rfl
    | true => exact absurd ((strchr_eq_true t '/').mp hb) hslash
  · intro e
    rw [e] at hacc
    exact hacc (by decide)
  · intro calls hres
    exact main_of_target_bare w argv0 args t calls hres hslash

/-- C20, witness: the scan of a directory that lists `python3.10`, `README`,
`python9.1` and `python2.6`. -/
theorem find_latest_result_witness :
    main scanWorld (cs "/usr/bin/python") [cs "-V"]
      = main_bare scanWorld (cs "/usr/bin/python") [cs "-V"] (cs "python9.1")
          [Call.getenv (cs "EPYTHON"), Call.fopen ENVD_CONFIG, Call.scandir (cs "/usr/bin")] :=
  (find_latest_result scanWorld (cs "/usr/bin/python") [cs "-V"] (cs "python9.1")
    (by decide)).2.2.2.2.2.2 _ (by decide)

/-! ## The search of `PATH` on symbolic links and empty segments -/

/-- The library function `stat` never reports a symbolic link: it reports
what the link leads to. -/
theorem stat_follow_not_symlink (lstat : CString → Option FileKind) :
    ∀ (fuel : Nat) (path target : CString),
      stat_follow lstat fuel path ≠ some (FileKind.symlink target) := by
  intro fuel
  induction fuel with
  | zero => intro path target h; cases h
  | succ fuel ih =>
    intro path target h
    unfold stat_follow at h
    cases hk : lstat path with
    | none => rw [hk] at h; cases h
    | some kind =>
      rw [hk] at h
      cases kind with
      | regular => cases h
      | directory => cases h
      | symlink t => exact ih t target h

/-- The test of line 66 holds exactly when `stat` reports a regular file: its
`S_ISLNK` half never holds of a result of `stat`. -/
theorem stat_test_iff (lstat : CString → Option FileKind) (path : CString) :
    stat_test lstat path = true ↔ stat_follow lstat 40 path = some FileKind.regular := by
  unfold stat_test
  cases h : stat_follow lstat 40 path with
  | none => simp
  | some kind =>
    cases kind with
    | regular => simp
    | directory => simp
    | symlink t => exact absurd h (stat_follow_not_symlink lstat 40 path t)

/-- C10, the code at the failing inputs. With `PATH` set to `/z` and
`/z/python` a symbolic link whose target does not exist, the segment `/z`
holds `python` as a symbolic link, and `find_path` returns `NULL`: line 66
calls `stat`, which follows the link and fails. With `PATH` set to
`/opt::/bin` and `python` in the current directory and in `/bin`, `find_path`
tests `/opt/python` and `/bin/python` and returns `/bin`; with `PATH` set to
`:/bin` and a file `/python` it tests `/bin/python` alone and returns `NULL`:
an empty segment is not searched, under either reading of it. -/
theorem find_path_skips :
    linkFiles (cs "/z/python") = some (FileKind.symlink (cs "/z/python2.7")) ∧
    find_path linkWorld (cs "python")
      = (none, [Call.getenv (cs "PATH"), Call.stat (cs "/z/python")]) ∧
    find_path gapWorld (cs "python")
      = (some (cs "/bin"),
          [Call.getenv (cs "PATH"), Call.stat (cs "/opt/python"),
           Call.stat (cs "/bin/python")]) ∧
    find_path rootWorld (cs "python")
      = (none, [Call.getenv (cs "PATH"), Call.stat (cs "/bin/python")]) := by
  decide

end PythonWrapper
